import Mathlib

/-!
Verification of the manifest-editing core of `cargo-wizard`
(`src/manifest.rs`): the profile resolver, the inheritance injector and
the field merger of `ParsedManifest::apply_profile`, together with a
lossless parser/serializer model of the document tree.

The document tree itself (the `toml_edit` types `Document`, `Table`,
`Item`, `Value`, `Decor`) is not part of the repository's own sources;
it is modelled here from the specification's data model (§3, §4.1):
a Section is an ordered key→item mapping with a "dotted" rendering
flag, an Item is a tagged variant over {Value, Section,
collection-of-sections}, and a Value carries a Decoration (leading
whitespace/blank lines, spacing and trailing same-line comment).
-/

namespace CargoWizard

/-- Modelled from the spec: Decoration attached to a value — the
leading whitespace/blank-line/comment run before the key (`pre`), the
text between the key and the value including the equals sign (`eq`),
and the trailing same-line comment after the value (`post`).  For
tables, `eq` is unused.  -/
structure Decor where
  pre : String
  eq : String
  post : String
deriving DecidableEq, Repr

/-- Modelled from the spec: default decoration for a freshly inserted
key/value pair — a single leading newline, standard spacing, no
comment. -/
def Decor.dflt : Decor := ⟨"\n", " = ", ""⟩

/-- Modelled from the spec: the typed payload of a scalar value
(`Bool | Int | String`; the claims under study do not depend on the
other scalar shapes). -/
inductive RawVal where
  | bool : Bool → RawVal
  | int : Int → RawVal
  | str : String → RawVal
deriving DecidableEq, Repr

/-- Modelled from the spec: a Value is a scalar datum plus its attached
Decoration, which is preserved independently of the content when a
Value is replaced. -/
structure Val where
  raw : RawVal
  decor : Decor
deriving DecidableEq, Repr

/-- Modelled from the spec: an Item is a tagged variant over
{Value, Section, collection-of-sections}.  A Section (`table`) carries
its decoration, its "dotted" rendering flag and its ordered key→item
entries.  The collection-of-sections variant (`aot`, an
array-of-tables) is never produced by the operations under study; only
its shape (neither a Value nor a Section) matters, so its contents are
not modelled. -/
inductive Item where
  | value : Val → Item
  | table : Decor → Bool → List (String × Item) → Item
  | aot : Item
deriving Repr

/-- Modelled from the spec: the Document owns the parse tree (the root
section's entries) plus the trailing text of the file after the last
entry. -/
structure Document where
  entries : List (String × Item)
  trailer : String
deriving Repr

/-- `Table::get` / first lookup of a key in the ordered entry list. -/
def lookupItem : List (String × Item) → String → Option Item
  | [], _ => none
  | (k, it) :: rest, key => if k = key then some it else lookupItem rest key

/-- `Table::contains_key`. -/
def containsKey (t : List (String × Item)) (key : String) : Bool :=
  (lookupItem t key).isSome

/-- Replace the item stored at `key` in place (first occurrence), keeping
its position in the key order; identity if the key is absent. -/
def setKey : List (String × Item) → String → Item → List (String × Item)
  | [], _, _ => []
  | (k, it) :: rest, key, newIt =>
    if k = key then (k, newIt) :: rest else (k, it) :: setKey rest key newIt

/-- `Table::insert`: overwrite in place if the key is present, append at
the end otherwise. -/
def insertT (t : List (String × Item)) (key : String) (it : Item) : List (String × Item) :=
  if containsKey t key then setKey t key it else t ++ [(key, it)]

/-- `entry(key).or_insert(dflt)`: return the (possibly extended) entry
list together with the item now stored at `key`. -/
def entryOrInsert (t : List (String × Item)) (key : String) (dflt : Item) :
    List (String × Item) × Item :=
  match lookupItem t key with
  | some it => (t, it)
  | none => (t ++ [(key, dflt)], dflt)

/-- `crate::toml::BuiltinProfile` — the closed two-variant set of
builtin profiles a template can declare as its base (declared outside
`manifest.rs`; modelled from the spec). -/
inductive BuiltinProfile where
  | dev
  | release
deriving DecidableEq, Repr

/-- The name string of a builtin profile, as matched in `apply_profile`. -/
def builtinName : BuiltinProfile → String
  | .dev => "dev"
  | .release => "release"

/-- Modelled from the spec: `crate::TomlProfileTemplate` — a declared
builtin base plus the ordered field list to merge (declared outside
`manifest.rs`). -/
structure TomlProfileTemplate where
  inherits : BuiltinProfile
  fields : List (String × RawVal)

/-- `is_builtin_profile` from `manifest.rs`: exactly the names `dev`
and `release`. -/
def is_builtin_profile (name : String) : Bool :=
  name = "dev" || name = "release"

/-- `Item::as_value`. -/
def asValue : Item → Option Val
  | .value v => some v
  | _ => none

/-- Whether an item is structurally a Section. -/
def isTable : Item → Bool
  | .table _ _ _ => true
  | _ => false

/-- The inheritance-injection step of `apply_profile` (the non-builtin
branch): snapshot all entries, clear the table, insert `inherits` first
when no entry with that key existed, then re-insert the snapshot. -/
def injectInherits (entries : List (String × Item)) (base : BuiltinProfile) :
    List (String × Item) :=
  entries.foldl (fun acc p => insertT acc p.1 p.2)
    (if entries.any (fun p => p.1 = "inherits") then []
     else [("inherits", Item.value ⟨RawVal.str (builtinName base), Decor.dflt⟩)])

/-- One iteration of the field-merge loop of `apply_profile`: build the
new value with default decoration, copy the existing item's decoration
onto it when that item is a Value, then store it at the key's original
position (or append when the key is absent). -/
def mergeStep (acc : List (String × Item)) (field : String × RawVal) :
    List (String × Item) :=
  let newValue : Val := ⟨field.2, Decor.dflt⟩
  match lookupItem acc field.1 with
  | some existing =>
    let newValue :=
      match asValue existing with
      | some v => { newValue with decor := v.decor }
      | none => newValue
    setKey acc field.1 (Item.value newValue)
  | none => acc ++ [(field.1, Item.value newValue)]

/-- The field-merge loop of `apply_profile`, processing the template's
fields in order. -/
def mergeFields (entries : List (String × Item)) (fields : List (String × RawVal)) :
    List (String × Item) :=
  fields.foldl mergeStep entries

/-- `ParsedManifest::apply_profile` from `manifest.rs`: resolve or
create the top-level `profile` section and mark it dotted, resolve or
create the named profile under it (failing when either existing item is
not a section), run the inheritance injection for non-builtin names,
then merge the template's fields. -/
def applyProfile (doc : Document) (name : String) (template : TomlProfileTemplate) :
    Except String Document :=
  let resolved := entryOrInsert doc.entries "profile" (Item.table Decor.dflt false [])
  match resolved.2 with
  | Item.value _ => Except.error "The profile item in Cargo.toml is not a table"
  | Item.aot => Except.error "The profile item in Cargo.toml is not a table"
  | Item.table pdec _ pentries =>
    let inner := entryOrInsert pentries name (Item.table Decor.dflt false [])
    match inner.2 with
    | Item.value _ =>
      Except.error ("The profile." ++ name ++ " table in Cargo.toml is not a table")
    | Item.aot =>
      Except.error ("The profile." ++ name ++ " table in Cargo.toml is not a table")
    | Item.table dec dotted entries =>
      let entries1 :=
        if is_builtin_profile name then entries else injectInherits entries template.inherits
      let entries2 := mergeFields entries1 template.fields
      Except.ok { doc with
        entries := setKey resolved.1 "profile"
          (Item.table pdec true (setKey inner.1 name (Item.table dec dotted entries2))) }

/-! ### Closed-form description of the field merge

`mergeSpec` restates the merge loop as a single pass: every existing
entry whose key is assigned by the template is overwritten in place
(last assignment wins, decoration taken from the old item when it was a
Value), and the template keys absent from the section are appended at
the end, in order of first occurrence, with default decoration. -/

/-- The last value the template's field list assigns to a key, if any. -/
def fieldLast : List (String × RawVal) → String → Option RawVal
  | [], _ => none
  | f :: rest, k =>
    match fieldLast rest k with
    | some r => some r
    | none => if f.1 = k then some f.2 else none

/-- The decoration the merge copies onto a new value replacing `it`:
the old decoration when `it` is a Value, the default otherwise. -/
def decorOf : Item → Decor
  | .value v => v.decor
  | _ => Decor.dflt

/-- How the merge rewrites one pre-existing entry. -/
def overwriteEntry (fields : List (String × RawVal)) (p : String × Item) : String × Item :=
  match fieldLast fields p.1 with
  | some raw => (p.1, Item.value ⟨raw, decorOf p.2⟩)
  | none => p

/-- First occurrences of the keys of a field list, in order. -/
def dedupKeys : List (String × RawVal) → List String
  | [] => []
  | f :: rest => f.1 :: (dedupKeys rest).filter (fun k => !(k = f.1 : Bool))

/-- The template keys the merge appends, in order of first occurrence. -/
def newKeys (entries : List (String × Item)) (fields : List (String × RawVal)) :
    List String :=
  dedupKeys (fields.filter (fun f => !(containsKey entries f.1)))

/-- The entries the merge appends at the end of the section. -/
def appendedEntries (entries : List (String × Item)) (fields : List (String × RawVal)) :
    List (String × Item) :=
  (newKeys entries fields).map
    (fun k => (k, Item.value ⟨(fieldLast fields k).getD (RawVal.bool false), Decor.dflt⟩))

/-- Single-pass description of the merge loop. -/
def mergeSpec (entries : List (String × Item)) (fields : List (String × RawVal)) :
    List (String × Item) :=
  entries.map (overwriteEntry fields) ++ appendedEntries entries fields

/-- The entries of the profile section `name` of a document, when the
path `profile.name` resolves to a genuine section. -/
def sectionOf (doc : Document) (name : String) : Option (List (String × Item)) :=
  match lookupItem doc.entries "profile" with
  | some (Item.table _ _ pe) =>
    match lookupItem pe name with
    | some (Item.table _ _ es) => some es
    | _ => none
  | _ => none

/-! ### A lossless parser and serializer for the document tree

Modelled from the spec: the Document Tree's `parse`/`serialize` pair
(§4.1) is not part of this repository's sources (it lives in the
`toml_edit` dependency), so it is modelled here from the spec's
description of the format (§6): a line-oriented configuration text of
named sections (`[a]`, `[a.b]`), key/value pairs, comments and blank
lines, every formatting byte kept as decoration so that serialization
reproduces the input exactly. -/

/-- Split a character text into lines; every line keeps its trailing
newline except the last (possibly empty) one. -/
def splitLines : List Char → List (List Char)
  | [] => [[]]
  | c :: rest =>
    if c = '\n' then ['\n'] :: splitLines rest
    else
      match splitLines rest with
      | [] => [[c]]
      | l :: ls => (c :: l) :: ls

/-- Longest prefix satisfying `p`, and the remainder. -/
def spanL (p : Char → Bool) : List Char → List Char × List Char
  | [] => ([], [])
  | c :: rest =>
    if p c then
      let s := spanL p rest
      (c :: s.1, s.2)
    else ([], c :: rest)

def isWsChar (c : Char) : Bool := c = ' ' || c = '\t'

def isIdentChar (c : Char) : Bool := c.isAlphanum || c = '-' || c = '_'

/-- The canonical text of a scalar value. -/
def renderRaw : RawVal → List Char
  | .bool true => "true".data
  | .bool false => "false".data
  | .int i => (toString i).data
  | .str s => '"' :: s.data ++ ['"']

/-- Strip one leading minus sign. -/
def stripNeg : List Char → Bool × List Char
  | [] => (false, [])
  | c :: rest => if c = '-' then (true, rest) else (false, c :: rest)

/-- Parse a value token: `true`/`false`, a quoted string, or an integer
written canonically (validated by re-rendering).  Returns the value,
its source text and the rest of the line. -/
def tryVal (l : List Char) : Option (RawVal × List Char × List Char) :=
  if l.take 4 = "true".data then some (RawVal.bool true, "true".data, l.drop 4)
  else if l.take 5 = "false".data then some (RawVal.bool false, "false".data, l.drop 5)
  else if l.take 1 = ['"'] then
    let s := spanL (fun c => !(c = '"')) (l.drop 1)
    if s.2.take 1 = ['"'] then
      some (RawVal.str ⟨s.1⟩, '"' :: s.1 ++ ['"'], s.2.drop 1)
    else none
  else
    let sn := stripNeg l
    let ds := spanL Char.isDigit sn.2
    if ds.1.isEmpty then none
    else
      let n : Nat := ds.1.foldl (fun acc c => acc * 10 + (c.toNat - 48)) 0
      let v : RawVal := RawVal.int (if sn.1 then -(n : Int) else (n : Int))
      let vtext := if sn.1 then '-' :: ds.1 else ds.1
      if renderRaw v = vtext then some (v, vtext, ds.2) else none

/-- The recognized shapes of a line (after stripping its newline). -/
inductive LineShape where
  | decorLine : LineShape
  | header1 : List Char → List Char → List Char → LineShape
  | header2 : List Char → List Char → List Char → List Char → LineShape
  | kvLine : List Char → List Char → List Char → RawVal → List Char → LineShape

/-- Classify one line body: blank/comment decoration, `[a]` header,
`[a.b]` header, or a key/value pair. -/
def classifyLine (core : List Char) : Option LineShape :=
  let s0 := spanL isWsChar core
  if s0.2.isEmpty then some LineShape.decorLine
  else if s0.2.take 1 = ['#'] then some LineShape.decorLine
  else if s0.2.take 1 = ['['] then
    let s1 := spanL isIdentChar (s0.2.drop 1)
    if s1.1.isEmpty then none
    else if s1.2.take 1 = [']'] then some (LineShape.header1 s0.1 s1.1 (s1.2.drop 1))
    else if s1.2.take 1 = ['.'] then
      let s2 := spanL isIdentChar (s1.2.drop 1)
      if s2.1.isEmpty then none
      else if s2.2.take 1 = [']'] then
        some (LineShape.header2 s0.1 s1.1 s2.1 (s2.2.drop 1))
      else none
    else none
  else
    let s1 := spanL isIdentChar s0.2
    if s1.1.isEmpty then none
    else
      let s2 := spanL isWsChar s1.2
      if s2.2.take 1 = ['='] then
        let s3 := spanL isWsChar (s2.2.drop 1)
        match tryVal s3.2 with
        | some (v, _, post) =>
          some (LineShape.kvLine s0.1 s1.1 (s2.1 ++ '=' :: s3.1) v post)
        | none => none
      else none

/-- Qualified section path text. -/
def pathString : Option String → String → String
  | none, k => k
  | some p, k => p ++ "." ++ k

mutual
/-- Render one entry of a section body: key/value pairs with their
decoration, sub-sections with `[parent.child]` headers (or, for dotted
sections, no header of their own — only their children). -/
def renderItemEntry : Option String → String × Item → List Char
  | _, (k, Item.value v) =>
    v.decor.pre.data ++ k.data ++ v.decor.eq.data ++ renderRaw v.raw ++ v.decor.post.data
  | parent, (k, Item.table dec dotted entries) =>
    (if dotted then []
     else dec.pre.data ++ '[' :: (pathString parent k).data ++ ']' :: dec.post.data)
    ++ renderEntriesAux (some (pathString parent k)) entries
  | _, (_, Item.aot) => []

def renderEntriesAux : Option String → List (String × Item) → List Char
  | _, [] => []
  | parent, e :: rest => renderItemEntry parent e ++ renderEntriesAux parent rest
end

/-- Serialize a document back to text. -/
def serializeDocument (doc : Document) : String :=
  ⟨renderEntriesAux none doc.entries ++ doc.trailer.data⟩

/-- An open (still being parsed) sub-section. -/
structure OpenSub where
  name : String
  dec : Decor
  kvs : List (String × Item)

/-- An open top-level section, with its closed sub-sections and the
currently open one. -/
structure OpenTop where
  name : String
  dec : Decor
  implicit : Bool
  kvs : List (String × Item)
  subs : List (String × Item)
  openSub : Option OpenSub

def closeSub (s : OpenSub) : String × Item := (s.name, Item.table s.dec false s.kvs)

def closedSub : Option OpenSub → List (String × Item)
  | none => []
  | some s => [closeSub s]

def closeTop (o : OpenTop) : String × Item :=
  (o.name, Item.table o.dec o.implicit (o.kvs ++ o.subs ++ closedSub o.openSub))

def closedTop : Option OpenTop → List (String × Item)
  | none => []
  | some o => [closeTop o]

/-- Parser state: closed top-level entries, the open section (if any)
and the decoration text not yet attached to an entry. -/
structure PState where
  top : List (String × Item)
  opened : Option OpenTop
  pending : List Char

/-- Strip a line's trailing newline, keeping it separately. -/
def splitNl : List Char → List Char × List Char
  | [] => ([], [])
  | [c] => if c = '\n' then ([], ['\n']) else ([c], [])
  | c :: rest =>
    let s := splitNl rest
    (c :: s.1, s.2)

/-- Consume one line. -/
def parseStep (st : PState) (line : List Char) : Option PState :=
  let parts := splitNl line
  match classifyLine parts.1 with
  | none => none
  | some LineShape.decorLine => some { st with pending := st.pending ++ line }
  | some (LineShape.header1 ws n1 post) =>
    let top2 := st.top ++ closedTop st.opened
    if containsKey top2 ⟨n1⟩ then none
    else some
      { top := top2
        opened := some
          { name := ⟨n1⟩
            dec := ⟨⟨st.pending ++ ws⟩, "", ⟨post⟩⟩
            implicit := false, kvs := [], subs := [], openSub := none }
        pending := parts.2 }
  | some (LineShape.header2 ws n1 n2 post) =>
    match st.opened with
    | some o =>
      if o.name = (⟨n1⟩ : String) then
        let subs2 := o.subs ++ closedSub o.openSub
        if containsKey subs2 ⟨n2⟩ then none
        else some
          { top := st.top
            opened := some
              { o with subs := subs2
                       openSub := some ⟨⟨n2⟩, ⟨⟨st.pending ++ ws⟩, "", ⟨post⟩⟩, []⟩ }
            pending := parts.2 }
      else
        let top2 := st.top ++ closedTop st.opened
        if containsKey top2 ⟨n1⟩ then none
        else some
          { top := top2
            opened := some
              { name := ⟨n1⟩, dec := ⟨"", "", ""⟩, implicit := true, kvs := [], subs := []
                openSub := some ⟨⟨n2⟩, ⟨⟨st.pending ++ ws⟩, "", ⟨post⟩⟩, []⟩ }
            pending := parts.2 }
    | none =>
      let top2 := st.top
      if containsKey top2 ⟨n1⟩ then none
      else some
        { top := top2
          opened := some
            { name := ⟨n1⟩, dec := ⟨"", "", ""⟩, implicit := true, kvs := [], subs := []
              openSub := some ⟨⟨n2⟩, ⟨⟨st.pending ++ ws⟩, "", ⟨post⟩⟩, []⟩ }
          pending := parts.2 }
  | some (LineShape.kvLine ws key eqt v post) =>
    let item : String × Item :=
      (⟨key⟩, Item.value ⟨v, ⟨⟨st.pending ++ ws⟩, ⟨eqt⟩, ⟨post⟩⟩⟩)
    match st.opened with
    | none => some { st with top := st.top ++ [item], pending := parts.2 }
    | some o =>
      match o.openSub with
      | none =>
        if o.subs.isEmpty then
          some { st with opened := some { o with kvs := o.kvs ++ [item] }, pending := parts.2 }
        else none
      | some s => some
          { st with
            opened := some { o with openSub := some { s with kvs := s.kvs ++ [item] } }
            pending := parts.2 }

def finalizeState (st : PState) : Document :=
  ⟨st.top ++ closedTop st.opened, ⟨st.pending⟩⟩

def parseLines : PState → List (List Char) → Option Document
  | st, [] => some (finalizeState st)
  | st, l :: ls =>
    match parseStep st l with
    | none => none
    | some st2 => parseLines st2 ls

/-- Parse a document text into a Document tree. -/
def parseDocument (s : String) : Option Document :=
  parseLines ⟨[], none, []⟩ (splitLines s.data)

/-- The text a parser state stands for: everything already rendered,
plus the pending decoration. -/
def renderState (st : PState) : List Char :=
  renderEntriesAux none (st.top ++ closedTop st.opened) ++ st.pending

/-! ### Basic lemmas about the ordered-map operations -/

theorem containsKey_iff_mem {t : List (String × Item)} {k : String} :
    containsKey t k = true ↔ k ∈ t.map Prod.fst := by
  induction t with
  | nil => simp [containsKey, lookupItem]
  | cons p rest ih =>
    by_cases h : p.1 = k
    · simp [containsKey, lookupItem, h]
    · simpa [containsKey, lookupItem, h, Ne.symm h] using ih

theorem containsKey_eq_false {t : List (String × Item)} {k : String} :
    containsKey t k = false ↔ ¬ k ∈ t.map Prod.fst := by
  rw [← containsKey_iff_mem]
  cases h : containsKey t k <;> simp

theorem lookupItem_eq_none {t : List (String × Item)} {k : String} :
    lookupItem t k = none ↔ ¬ k ∈ t.map Prod.fst := by
  rw [← containsKey_eq_false, containsKey]
  cases h : lookupItem t k <;> simp [h]

theorem lookupItem_isSome {t : List (String × Item)} {k : String}
    (h : k ∈ t.map Prod.fst) : ∃ it, lookupItem t k = some it := by
  cases hl : lookupItem t k with
  | none => exact absurd (lookupItem_eq_none.mp hl) (not_not.mpr h)
  | some it => exact ⟨it, rfl⟩

theorem lookupItem_append (t1 t2 : List (String × Item)) (k : String) :
    lookupItem (t1 ++ t2) k =
      match lookupItem t1 k with
      | some it => some it
      | none => lookupItem t2 k := by
  induction t1 with
  | nil => simp [lookupItem]
  | cons p rest ih =>
    by_cases h : p.1 = k <;> simp [lookupItem, h, ih]

theorem setKey_keys (t : List (String × Item)) (k : String) (it : Item) :
    (setKey t k it).map Prod.fst = t.map Prod.fst := by
  induction t with
  | nil => rfl
  | cons p rest ih =>
    by_cases h : p.1 = k <;> simp [setKey, h, ih]

theorem containsKey_setKey (t : List (String × Item)) (k k' : String) (it : Item) :
    containsKey (setKey t k it) k' = containsKey t k' := by
  cases h : containsKey t k'
  · exact containsKey_eq_false.mpr (by rw [setKey_keys]; exact containsKey_eq_false.mp h)
  · exact containsKey_iff_mem.mpr (by rw [setKey_keys]; exact containsKey_iff_mem.mp h)

theorem setKey_absent {t : List (String × Item)} {k : String} (it : Item)
    (h : ¬ k ∈ t.map Prod.fst) : setKey t k it = t := by
  induction t with
  | nil => rfl
  | cons p rest ih =>
    simp only [List.map_cons, List.mem_cons] at h
    push_neg at h
    simp [setKey, Ne.symm h.1, ih h.2]

/-- Under distinct keys, in-place replacement is a pointwise map. -/
theorem setKey_eq_map {t : List (String × Item)} (k : String) (it : Item)
    (h : (t.map Prod.fst).Nodup) :
    setKey t k it = t.map (fun p => if p.1 = k then (p.1, it) else p) := by
  induction t with
  | nil => rfl
  | cons p rest ih =>
    simp only [List.map_cons, List.nodup_cons] at h
    by_cases hp : p.1 = k
    · subst hp
      have : rest.map (fun q => if q.1 = p.1 then (q.1, it) else q) = rest := by
        have hm : rest.map (fun q => if q.1 = p.1 then (q.1, it) else q) = rest.map id := by
          apply List.map_congr_left
          intro q hq
          have : q.1 ≠ p.1 := by
            intro hcon
            exact h.1 (hcon ▸ List.mem_map_of_mem Prod.fst hq)
          simp [this]
        simpa using hm
      simp [setKey, this]
    · simp [setKey, hp, ih h.2]

theorem containsKey_append (t1 t2 : List (String × Item)) (k : String) :
    containsKey (t1 ++ t2) k = (containsKey t1 k || containsKey t2 k) := by
  cases h1 : containsKey t1 k <;> cases h2 : containsKey t2 k <;>
    [skip; skip; skip; skip] <;>
    first
    | (apply containsKey_eq_false.mpr
       simp only [List.map_append, List.mem_append]
       push_neg
       exact ⟨containsKey_eq_false.mp h1, containsKey_eq_false.mp h2⟩)
    | (apply containsKey_iff_mem.mpr
       simp only [List.map_append, List.mem_append]
       first
       | exact Or.inl (containsKey_iff_mem.mp h1)
       | exact Or.inr (containsKey_iff_mem.mp h2))

theorem lookup_of_mem_nodup {t : List (String × Item)} {p : String × Item}
    (h : (t.map Prod.fst).Nodup) (hm : p ∈ t) : lookupItem t p.1 = some p.2 := by
  induction t with
  | nil => cases hm
  | cons q rest ih =>
    simp only [List.map_cons, List.nodup_cons] at h
    rcases List.mem_cons.mp hm with rfl | hm'
    · simp [lookupItem]
    · have hne : q.1 ≠ p.1 := by
        intro hcon
        exact h.1 (hcon ▸ List.mem_map_of_mem Prod.fst hm')
      simp [lookupItem, hne, ih h.2 hm']

theorem mergeStep_present {entries : List (String × Item)} {f : String × RawVal}
    {it0 : Item} (hl : lookupItem entries f.1 = some it0) :
    mergeStep entries f = setKey entries f.1 (Item.value ⟨f.2, decorOf it0⟩) := by
  unfold mergeStep
  rw [hl]
  cases it0 <;> rfl

theorem mergeStep_absent {entries : List (String × Item)} {f : String × RawVal}
    (hl : lookupItem entries f.1 = none) :
    mergeStep entries f = entries ++ [(f.1, Item.value ⟨f.2, Decor.dflt⟩)] := by
  unfold mergeStep
  rw [hl]

theorem mergeStep_keys_nodup {entries : List (String × Item)} {f : String × RawVal}
    (h : (entries.map Prod.fst).Nodup) : ((mergeStep entries f).map Prod.fst).Nodup := by
  cases hl : lookupItem entries f.1 with
  | some it0 => rw [mergeStep_present hl, setKey_keys]; exact h
  | none =>
    rw [mergeStep_absent hl]
    simp only [List.map_append, List.map_cons, List.map_nil]
    rw [List.nodup_append]
    exact ⟨h, List.nodup_singleton _,
      by simpa using fun hmem => lookupItem_eq_none.mp hl hmem⟩

theorem fieldLast_cons (f : String × RawVal) (rest : List (String × RawVal)) (k : String) :
    fieldLast (f :: rest) k =
      match fieldLast rest k with
      | some r => some r
      | none => if f.1 = k then some f.2 else none := rfl

theorem fieldLast_cons_ne {f : String × RawVal} {rest : List (String × RawVal)}
    {k : String} (h : ¬ f.1 = k) : fieldLast (f :: rest) k = fieldLast rest k := by
  rw [fieldLast_cons]
  cases hfr : fieldLast rest k <;> simp [h]

theorem fieldLast_cons_self (f : String × RawVal) (rest : List (String × RawVal)) :
    fieldLast (f :: rest) f.1 = some ((fieldLast rest f.1).getD f.2) := by
  rw [fieldLast_cons]
  cases hfr : fieldLast rest f.1 <;> simp

theorem mem_dedupKeys {l : List (String × RawVal)} {k : String}
    (h : k ∈ dedupKeys l) : k ∈ l.map Prod.fst := by
  induction l with
  | nil => cases h
  | cons f rest ih =>
    simp only [dedupKeys, List.mem_cons] at h
    rcases h with rfl | h'
    · simp
    · exact List.mem_cons_of_mem _ (ih (List.mem_of_mem_filter h'))

theorem dedupKeys_filter (l : List (String × RawVal)) (k0 : String) :
    dedupKeys (l.filter (fun f => !(f.1 = k0 : Bool))) =
      (dedupKeys l).filter (fun k => !(k = k0 : Bool)) := by
  induction l with
  | nil => rfl
  | cons f rest ih =>
    by_cases hf : f.1 = k0
    · have hfilter : (f :: rest).filter (fun f => !(f.1 = k0 : Bool)) =
          rest.filter (fun f => !(f.1 = k0 : Bool)) := by
        simp [List.filter_cons, hf]
      rw [hfilter, ih]
      have : (dedupKeys (f :: rest)).filter (fun k => !(k = k0 : Bool)) =
          ((dedupKeys rest).filter (fun k => !(k = f.1 : Bool))).filter
            (fun k => !(k = k0 : Bool)) := by
        simp [dedupKeys, List.filter_cons, hf]
      rw [this, List.filter_filter]
      subst hf
      apply List.filter_congr
      intro k _
      cases hk : (k = f.1 : Bool) <;> simp [hk]
    · have hfilter : (f :: rest).filter (fun f => !(f.1 = k0 : Bool)) =
          f :: rest.filter (fun f => !(f.1 = k0 : Bool)) := by
        simp [List.filter_cons, hf]
      rw [hfilter]
      show f.1 :: (dedupKeys (rest.filter _)).filter _ = _
      rw [ih]
      have hrhs : (dedupKeys (f :: rest)).filter (fun k => !(k = k0 : Bool)) =
          f.1 :: ((dedupKeys rest).filter (fun k => !(k = f.1 : Bool))).filter
            (fun k => !(k = k0 : Bool)) := by
        simp [dedupKeys, List.filter_cons, hf]
      rw [hrhs, List.filter_filter, List.filter_filter]
      refine congrArg (f.1 :: ·) ?_
      apply List.filter_congr
      intro k _
      cases h1 : (k = k0 : Bool) <;> cases h2 : (k = f.1 : Bool) <;> simp [h1, h2]

theorem overwriteEntry_nil (p : String × Item) : overwriteEntry [] p = p := rfl

theorem overwriteEntry_cons_ne {f : String × RawVal} {rest : List (String × RawVal)}
    {p : String × Item} (h : ¬ f.1 = p.1) :
    overwriteEntry (f :: rest) p = overwriteEntry rest p := by
  unfold overwriteEntry
  rw [fieldLast_cons_ne h]

theorem containsKey_singleton (k0 k : String) (it : Item) :
    containsKey [(k0, it)] k = (k0 = k : Bool) := by
  by_cases h : k0 = k <;> simp [containsKey, lookupItem, h]

/-- The merge loop, described in one pass: existing entries are
overwritten in place (decoration carried over from old Value items),
and the template's new keys are appended at the end in order of first
occurrence with default decoration. -/
theorem mergeFields_closed (fields : List (String × RawVal))
    (entries : List (String × Item)) (h : (entries.map Prod.fst).Nodup) :
    mergeFields entries fields = mergeSpec entries fields := by
  induction fields generalizing entries with
  | nil =>
    show entries = mergeSpec entries []
    have hmap : entries.map (overwriteEntry []) = entries := by
      have h1 : entries.map (overwriteEntry []) = entries.map id :=
        List.map_congr_left (fun p _ => overwriteEntry_nil p)
      simpa using h1
    simp [mergeSpec, appendedEntries, newKeys, dedupKeys, hmap]
  | cons f rest ih =>
    have hstep : mergeFields entries (f :: rest) = mergeFields (mergeStep entries f) rest := rfl
    rw [hstep]
    cases hl : lookupItem entries f.1 with
    | some it0 =>
      have hcontains : containsKey entries f.1 = true := by
        unfold containsKey; rw [hl]; rfl
      rw [mergeStep_present hl, ih _ (by rw [setKey_keys]; exact h)]
      unfold mergeSpec
      have hm : (setKey entries f.1 (Item.value ⟨f.2, decorOf it0⟩)).map (overwriteEntry rest) =
          entries.map (overwriteEntry (f :: rest)) := by
        rw [setKey_eq_map f.1 _ h, List.map_map]
        apply List.map_congr_left
        rintro ⟨k, itp⟩ hp
        show overwriteEntry rest (if k = f.1 then (k, Item.value ⟨f.2, decorOf it0⟩)
          else (k, itp)) = overwriteEntry (f :: rest) (k, itp)
        by_cases hpk : k = f.1
        · have hlk : lookupItem entries k = some it0 := by rw [hpk]; exact hl
          have hp2 : lookupItem entries k = some itp :=
            lookup_of_mem_nodup h (p := (k, itp)) hp
          have hit : itp = it0 := Option.some.inj (hp2.symm.trans hlk)
          rw [if_pos hpk, hit]
          unfold overwriteEntry
          cases hfr : fieldLast rest k with
          | some r =>
            have hfc : fieldLast (f :: rest) k = some r := by
              rw [fieldLast_cons, hfr]
            simp only [hfr, hfc]
            rfl
          | none =>
            have hfc : fieldLast (f :: rest) k = some f.2 := by
              rw [fieldLast_cons, hfr, if_pos hpk.symm]
            simp only [hfr, hfc]
        · rw [if_neg hpk]
          exact (overwriteEntry_cons_ne (p := (k, itp)) (fun hc => hpk hc.symm)).symm
      have ha : appendedEntries (setKey entries f.1 (Item.value ⟨f.2, decorOf it0⟩)) rest =
          appendedEntries entries (f :: rest) := by
        unfold appendedEntries newKeys
        simp only [containsKey_setKey]
        have hfil : (f :: rest).filter (fun g => !(containsKey entries g.1)) =
            rest.filter (fun g => !(containsKey entries g.1)) := by
          simp [List.filter_cons, hcontains]
        rw [hfil]
        apply List.map_congr_left
        intro k hk
        have hkmem := mem_dedupKeys hk
        obtain ⟨g, hg, hgk⟩ := List.mem_map.mp hkmem
        have hgfil := List.of_mem_filter hg
        have hkne : ¬ f.1 = k := by
          intro hc
          have hgc : containsKey entries g.1 = true := by rw [hgk, ← hc]; exact hcontains
          rw [hgc] at hgfil
          simp at hgfil
        rw [fieldLast_cons_ne hkne]
      rw [hm, ha]
    | none =>
      have hfresh : ¬ f.1 ∈ entries.map Prod.fst := lookupItem_eq_none.mp hl
      have hcf : containsKey entries f.1 = false := by
        unfold containsKey; rw [hl]; rfl
      rw [mergeStep_absent hl]
      have hnodup2 : (((entries ++ [(f.1, Item.value ⟨f.2, Decor.dflt⟩)]).map Prod.fst)).Nodup := by
        simp only [List.map_append, List.map_cons, List.map_nil]
        rw [List.nodup_append]
        exact ⟨h, List.nodup_singleton _, by simpa using fun hmem => hfresh hmem⟩
      rw [ih _ hnodup2]
      unfold mergeSpec
      rw [List.map_append]
      have hm : entries.map (overwriteEntry rest) = entries.map (overwriteEntry (f :: rest)) := by
        apply List.map_congr_left
        intro p hp
        have hne : ¬ f.1 = p.1 :=
          fun hc => hfresh (hc ▸ List.mem_map_of_mem Prod.fst hp)
        exact (overwriteEntry_cons_ne hne).symm
      have hhead : (([(f.1, Item.value ⟨f.2, Decor.dflt⟩)]).map (overwriteEntry rest)) =
          [(f.1, Item.value ⟨(fieldLast (f :: rest) f.1).getD (RawVal.bool false), Decor.dflt⟩)] := by
        simp only [List.map_cons, List.map_nil]
        unfold overwriteEntry
        cases hfr : fieldLast rest f.1 with
        | some r =>
          have hfc : fieldLast (f :: rest) f.1 = some r := by
            rw [fieldLast_cons]; rw [hfr]
          simp only [hfr, hfc]
          rfl
        | none =>
          have hfc : fieldLast (f :: rest) f.1 = some f.2 := by
            rw [fieldLast_cons]; rw [hfr]; simp
          simp only [hfr, hfc]
          rfl
      have htail : appendedEntries (entries ++ [(f.1, Item.value ⟨f.2, Decor.dflt⟩)]) rest =
          (appendedEntries entries (f :: rest)).tail := by
        unfold appendedEntries newKeys
        have hfil : (f :: rest).filter (fun g => !(containsKey entries g.1)) =
            f :: rest.filter (fun g => !(containsKey entries g.1)) := by
          simp [List.filter_cons, hcf]
        rw [hfil]
        have hfil2 : rest.filter
              (fun g => !(containsKey (entries ++ [(f.1, Item.value ⟨f.2, Decor.dflt⟩)]) g.1)) =
            (rest.filter (fun g => !(containsKey entries g.1))).filter
              (fun g => !(g.1 = f.1 : Bool)) := by
          rw [List.filter_filter]
          apply List.filter_congr
          intro g _
          rw [containsKey_append, containsKey_singleton]
          by_cases h1 : containsKey entries g.1 = true <;>
            by_cases h2 : f.1 = g.1 <;>
              simp [h1, h2, eq_comm]
        rw [hfil2, dedupKeys_filter]
        show _ = ((dedupKeys _).filter _).map _
        apply List.map_congr_left
        intro k hk
        have hkf := List.of_mem_filter hk
        have hkne : ¬ f.1 = k := by
          intro hc
          rw [← hc] at hkf
          simp at hkf
        rw [fieldLast_cons_ne hkne]
      have hexp : appendedEntries entries (f :: rest) =
          (f.1, Item.value ⟨(fieldLast (f :: rest) f.1).getD (RawVal.bool false), Decor.dflt⟩)
            :: (appendedEntries entries (f :: rest)).tail := by
        unfold appendedEntries newKeys
        have hfil : (f :: rest).filter (fun g => !(containsKey entries g.1)) =
            f :: rest.filter (fun g => !(containsKey entries g.1)) := by
          simp [List.filter_cons, hcf]
        rw [hfil]
        rfl
      rw [hm, hhead, htail, hexp]
      rw [List.append_assoc]
      rfl

/-! ### The inheritance injection, characterized -/

theorem any_key_eq_containsKey (t : List (String × Item)) (k : String) :
    (t.any (fun p => p.1 = k)) = containsKey t k := by
  induction t with
  | nil => rfl
  | cons p rest ih =>
    by_cases h : p.1 = k <;> simp [containsKey, lookupItem, h, ih, List.any_cons]

theorem insertT_fresh {acc : List (String × Item)} {k : String} (it : Item)
    (h : ¬ k ∈ acc.map Prod.fst) : insertT acc k it = acc ++ [(k, it)] := by
  unfold insertT
  rw [containsKey_eq_false.mpr h]
  simp

theorem foldl_insertT_fresh (items : List (String × Item)) :
    ∀ acc : List (String × Item), (items.map Prod.fst).Nodup →
      (∀ k ∈ items.map Prod.fst, ¬ k ∈ acc.map Prod.fst) →
      items.foldl (fun a p => insertT a p.1 p.2) acc = acc ++ items := by
  induction items with
  | nil => intro acc _ _; simp
  | cons p rest ih =>
    intro acc hnd hfresh
    simp only [List.map_cons, List.nodup_cons] at hnd
    have hp : ¬ p.1 ∈ acc.map Prod.fst := hfresh p.1 (by simp)
    have hstep : insertT acc p.1 p.2 = acc ++ [p] := insertT_fresh p.2 hp
    show rest.foldl (fun a p => insertT a p.1 p.2) (insertT acc p.1 p.2) = acc ++ p :: rest
    rw [hstep, ih (acc ++ [p]) hnd.2 ?fresh2, List.append_assoc]
    · rfl
    case fresh2 =>
      intro k hk
      simp only [List.map_append, List.map_cons, List.map_nil, List.mem_append]
      push_neg
      refine ⟨fun hc => hfresh k (List.mem_cons_of_mem _ hk) hc, ?_⟩
      simp only [List.mem_singleton]
      intro hc
      exact hnd.1 (hc ▸ hk)

theorem injectInherits_present {entries : List (String × Item)} (base : BuiltinProfile)
    (hc : containsKey entries "inherits" = true)
    (hnd : (entries.map Prod.fst).Nodup) :
    injectInherits entries base = entries := by
  unfold injectInherits
  rw [any_key_eq_containsKey, hc, if_pos rfl]
  simpa using foldl_insertT_fresh entries [] hnd (by simp)

theorem injectInherits_absent {entries : List (String × Item)} (base : BuiltinProfile)
    (hc : containsKey entries "inherits" = false)
    (hnd : (entries.map Prod.fst).Nodup) :
    injectInherits entries base =
      ("inherits", Item.value ⟨RawVal.str (builtinName base), Decor.dflt⟩) :: entries := by
  unfold injectInherits
  rw [any_key_eq_containsKey, hc, if_neg (by simp)]
  have hnmem : ¬ "inherits" ∈ entries.map Prod.fst := containsKey_eq_false.mp hc
  have := foldl_insertT_fresh entries
    [("inherits", Item.value ⟨RawVal.str (builtinName base), Decor.dflt⟩)] hnd ?fresh
  · simpa using this
  case fresh =>
    intro k hk
    simp only [List.map_cons, List.map_nil, List.mem_singleton]
    intro hc2
    exact hnmem (hc2 ▸ hk)

/-! ### Key-set evolution of the merge loop -/

theorem containsKey_mergeStep (entries : List (String × Item)) (f : String × RawVal)
    (k : String) :
    containsKey (mergeStep entries f) k = (containsKey entries k || (f.1 = k : Bool)) := by
  cases hl : lookupItem entries f.1 with
  | some it0 =>
    rw [mergeStep_present hl, containsKey_setKey]
    by_cases hk : f.1 = k
    · have : containsKey entries k = true := by
        rw [← hk]; unfold containsKey; rw [hl]; rfl
      simp [this, hk]
    · simp [hk]
  | none =>
    rw [mergeStep_absent hl, containsKey_append, containsKey_singleton]

theorem containsKey_mergeFields (fields : List (String × RawVal))
    (entries : List (String × Item)) (k : String) :
    containsKey (mergeFields entries fields) k =
      (containsKey entries k || fields.any (fun f => f.1 = k)) := by
  induction fields generalizing entries with
  | nil => simp [mergeFields]
  | cons f rest ih =>
    show containsKey (mergeFields (mergeStep entries f) rest) k = _
    rw [ih, containsKey_mergeStep]
    simp [List.any_cons, Bool.or_assoc, Bool.or_comm, Bool.or_left_comm]

theorem mergeFields_keys_nodup (fields : List (String × RawVal))
    (entries : List (String × Item)) (h : (entries.map Prod.fst).Nodup) :
    ((mergeFields entries fields).map Prod.fst).Nodup := by
  induction fields generalizing entries with
  | nil => exact h
  | cons f rest ih => exact ih _ (mergeStep_keys_nodup h)

/-! ### Computation laws for `applyProfile` -/

theorem setKey_cons_self (k : String) (it newIt : Item) (rest : List (String × Item)) :
    setKey ((k, it) :: rest) k newIt = (k, newIt) :: rest := by
  simp [setKey]

theorem setKey_append_last {l : List (String × Item)} {k : String} (it newIt : Item)
    (h : ¬ k ∈ l.map Prod.fst) :
    setKey (l ++ [(k, it)]) k newIt = l ++ [(k, newIt)] := by
  induction l with
  | nil => simp [setKey]
  | cons p rest ih =>
    obtain ⟨pk, pit⟩ := p
    simp only [List.map_cons, List.mem_cons] at h
    push_neg at h
    have hne : ¬ pk = k := fun hc => h.1 hc.symm
    show setKey ((pk, pit) :: (rest ++ [(k, it)])) k newIt = (pk, pit) :: (rest ++ [(k, newIt)])
    simp only [setKey, if_neg hne]
    rw [ih h.2]

/-- `apply_profile` when both the `profile` table and the named profile
table already exist. -/
theorem applyProfile_found {doc : Document} {name : String} {t : TomlProfileTemplate}
    {pd : Decor} {pdot : Bool} {pe : List (String × Item)} {d : Decor} {dt : Bool}
    {es : List (String × Item)}
    (h1 : lookupItem doc.entries "profile" = some (Item.table pd pdot pe))
    (h2 : lookupItem pe name = some (Item.table d dt es)) :
    applyProfile doc name t = Except.ok
      ⟨setKey doc.entries "profile" (Item.table pd true (setKey pe name
        (Item.table d dt (mergeFields
          (if is_builtin_profile name then es else injectInherits es t.inherits)
          t.fields)))), doc.trailer⟩ := by
  simp only [applyProfile, entryOrInsert, h1, h2]

/-- `apply_profile` when the document has no top-level `profile` item:
the `profile` table is created at the end of the document, dotted, with
the single requested profile in it. -/
theorem applyProfile_noProfile {doc : Document} {name : String} {t : TomlProfileTemplate}
    (h1 : lookupItem doc.entries "profile" = none) :
    applyProfile doc name t = Except.ok
      ⟨doc.entries ++ [("profile", Item.table Decor.dflt true
        [(name, Item.table Decor.dflt false (mergeFields
          (if is_builtin_profile name then [] else injectInherits [] t.inherits)
          t.fields))])], doc.trailer⟩ := by
  simp only [applyProfile, entryOrInsert, h1, lookupItem, List.nil_append]
  rw [setKey_append_last _ _ (lookupItem_eq_none.mp h1), setKey_cons_self]

/-- `apply_profile` when the `profile` table exists but the named
profile does not: the named profile table is appended to it. -/
theorem applyProfile_noSection {doc : Document} {name : String} {t : TomlProfileTemplate}
    {pd : Decor} {pdot : Bool} {pe : List (String × Item)}
    (h1 : lookupItem doc.entries "profile" = some (Item.table pd pdot pe))
    (h2 : lookupItem pe name = none) :
    applyProfile doc name t = Except.ok
      ⟨setKey doc.entries "profile" (Item.table pd true
        (pe ++ [(name, Item.table Decor.dflt false (mergeFields
          (if is_builtin_profile name then [] else injectInherits [] t.inherits)
          t.fields))])), doc.trailer⟩ := by
  simp only [applyProfile, entryOrInsert, h1, h2]
  rw [setKey_append_last _ _ (lookupItem_eq_none.mp h2)]

/-- `apply_profile` when the top-level `profile` item is not a table. -/
theorem applyProfile_err1 {doc : Document} {name : String} {t : TomlProfileTemplate}
    {it : Item} (h1 : lookupItem doc.entries "profile" = some it)
    (hnt : isTable it = false) :
    applyProfile doc name t =
      Except.error "The profile item in Cargo.toml is not a table" := by
  cases it with
  | value v => simp only [applyProfile, entryOrInsert, h1]
  | aot => simp only [applyProfile, entryOrInsert, h1]
  | table d b es => exact absurd hnt (by simp [isTable])

/-- `apply_profile` when the named profile item is not a table. -/
theorem applyProfile_err2 {doc : Document} {name : String} {t : TomlProfileTemplate}
    {pd : Decor} {pdot : Bool} {pe : List (String × Item)} {it : Item}
    (h1 : lookupItem doc.entries "profile" = some (Item.table pd pdot pe))
    (h2 : lookupItem pe name = some it) (hnt : isTable it = false) :
    applyProfile doc name t =
      Except.error ("The profile." ++ name ++ " table in Cargo.toml is not a table") := by
  cases it with
  | value v => simp only [applyProfile, entryOrInsert, h1, h2]
  | aot => simp only [applyProfile, entryOrInsert, h1, h2]
  | table d b es => exact absurd hnt (by simp [isTable])

/-! ### More lookup/merge lemmas -/

theorem lookup_setKey_self {l : List (String × Item)} {k : String} (it : Item)
    (h : containsKey l k = true) : lookupItem (setKey l k it) k = some it := by
  induction l with
  | nil => simp [containsKey, lookupItem] at h
  | cons p rest ih =>
    by_cases hp : p.1 = k
    · obtain ⟨pk, pit⟩ := p
      simp only at hp
      subst hp
      simp [setKey, lookupItem]
    · obtain ⟨pk, pit⟩ := p
      simp only at hp
      have h2 : containsKey rest k = true := by
        simpa [containsKey, lookupItem, hp] using h
      simp [setKey, lookupItem, hp, ih h2]

theorem setKey_self {l : List (String × Item)} {k : String} {it : Item}
    (h : lookupItem l k = some it) : setKey l k it = l := by
  induction l with
  | nil => simp [lookupItem] at h
  | cons p rest ih =>
    obtain ⟨pk, pit⟩ := p
    by_cases hp : pk = k
    · subst hp
      have : it = pit := by simpa [lookupItem] using h.symm
      subst this
      simp [setKey]
    · have h2 : lookupItem rest k = some it := by
        simpa [lookupItem, hp] using h
      simp [setKey, hp, ih h2]

theorem lookup_append_fresh {l : List (String × Item)} {k : String} (it : Item)
    (h : ¬ k ∈ l.map Prod.fst) : lookupItem (l ++ [(k, it)]) k = some it := by
  rw [lookupItem_append, lookupItem_eq_none.mpr h]
  simp [lookupItem]

theorem overwriteEntry_fst (fields : List (String × RawVal)) (p : String × Item) :
    (overwriteEntry fields p).1 = p.1 := by
  unfold overwriteEntry
  cases fieldLast fields p.1 <;> rfl

theorem lookup_map_overwrite (fields : List (String × RawVal))
    (l : List (String × Item)) (k : String) :
    lookupItem (l.map (overwriteEntry fields)) k =
      (lookupItem l k).map (fun it => (overwriteEntry fields (k, it)).2) := by
  induction l with
  | nil => simp [lookupItem]
  | cons p rest ih =>
    obtain ⟨pk, pit⟩ := p
    by_cases hp : pk = k
    · subst hp
      cases hf : fieldLast fields pk <;>
        simp [lookupItem, overwriteEntry, hf]
    · cases hf : fieldLast fields pk <;>
        simp [lookupItem, overwriteEntry, hf, hp, ih]

theorem fieldLast_eq_none_of_not_mem {fields : List (String × RawVal)} {k : String}
    (h : ¬ k ∈ fields.map Prod.fst) : fieldLast fields k = none := by
  induction fields with
  | nil => rfl
  | cons f rest ih =>
    simp only [List.map_cons, List.mem_cons] at h
    push_neg at h
    rw [fieldLast_cons_ne (fun hc => h.1 hc.symm), ih h.2]

theorem fieldLast_isSome_of_mem {fields : List (String × RawVal)} {k : String}
    (h : k ∈ fields.map Prod.fst) : ∃ r, fieldLast fields k = some r := by
  induction fields with
  | nil => cases h
  | cons f rest ih =>
    by_cases hk : f.1 = k
    · subst hk
      rw [fieldLast_cons_self]
      exact ⟨_, rfl⟩
    · have hm : k ∈ rest.map Prod.fst := by
        have h2 : k = f.1 ∨ k ∈ rest.map Prod.fst := by simpa using h
        rcases h2 with hc | hm
        · exact absurd hc.symm hk
        · exact hm
      rw [fieldLast_cons_ne hk]
      exact ih hm

theorem fieldLast_of_nodup_mem {fields : List (String × RawVal)} {k : String} {v : RawVal}
    (hnd : (fields.map Prod.fst).Nodup) (h : (k, v) ∈ fields) :
    fieldLast fields k = some v := by
  induction fields with
  | nil => cases h
  | cons f rest ih =>
    simp only [List.map_cons, List.nodup_cons] at hnd
    rcases List.mem_cons.mp h with rfl | hmem
    · rw [fieldLast_cons_self,
        fieldLast_eq_none_of_not_mem hnd.1]
      rfl
    · have hk : ¬ f.1 = k := by
        intro hc
        exact hnd.1 (hc ▸ List.mem_map_of_mem Prod.fst hmem)
      rw [fieldLast_cons_ne hk]
      exact ih hnd.2 hmem

theorem dedupKeys_of_nodup {fields : List (String × RawVal)}
    (hnd : (fields.map Prod.fst).Nodup) : dedupKeys fields = fields.map Prod.fst := by
  induction fields with
  | nil => rfl
  | cons f rest ih =>
    simp only [List.map_cons, List.nodup_cons] at hnd
    show f.1 :: (dedupKeys rest).filter (fun k => !(k = f.1 : Bool)) = f.1 :: rest.map Prod.fst
    rw [ih hnd.2]
    refine congrArg (f.1 :: ·) (List.filter_eq_self.mpr ?_)
    intro k hk
    have hkne : ¬ k = f.1 := fun hc => hnd.1 (hc ▸ hk)
    simp [hkne]

theorem decorOf_of_asValue_none {it : Item} (h : asValue it = none) :
    decorOf it = Decor.dflt := by
  cases it with
  | value v => simp [asValue] at h
  | table d b es => rfl
  | aot => rfl

theorem overwriteEntry_idem (fields : List (String × RawVal)) (p : String × Item) :
    overwriteEntry fields (overwriteEntry fields p) = overwriteEntry fields p := by
  obtain ⟨k, it⟩ := p
  cases hf : fieldLast fields k with
  | none => simp [overwriteEntry, hf]
  | some r => simp [overwriteEntry, hf, decorOf]

/-- A merged section is a fixed point of merging the same fields again. -/
theorem mergeFields_idem (fields : List (String × RawVal))
    (entries : List (String × Item)) (h : (entries.map Prod.fst).Nodup) :
    mergeFields (mergeFields entries fields) fields = mergeFields entries fields := by
  have hM : ((mergeFields entries fields).map Prod.fst).Nodup :=
    mergeFields_keys_nodup fields entries h
  rw [mergeFields_closed fields (mergeFields entries fields) hM]
  unfold mergeSpec
  have happ : appendedEntries (mergeFields entries fields) fields = [] := by
    unfold appendedEntries newKeys
    have hfil : fields.filter (fun f => !(containsKey (mergeFields entries fields) f.1)) = [] := by
      apply List.filter_eq_nil_iff.mpr
      intro f hf
      rw [containsKey_mergeFields]
      have : fields.any (fun g => g.1 = f.1) = true :=
        List.any_eq_true.mpr ⟨f, hf, by simp⟩
      simp [this]
    rw [hfil]
    rfl
  rw [happ, List.append_nil]
  have hfix : ∀ p ∈ mergeFields entries fields, overwriteEntry fields p = p := by
    intro p hp
    rw [mergeFields_closed fields entries h] at hp
    unfold mergeSpec at hp
    rcases List.mem_append.mp hp with hmap | hnew
    · obtain ⟨q, _, rfl⟩ := List.mem_map.mp hmap
      exact overwriteEntry_idem fields q
    · unfold appendedEntries at hnew
      obtain ⟨k, hk, rfl⟩ := List.mem_map.mp hnew
      have hkmem : k ∈ fields.map Prod.fst := by
        have := mem_dedupKeys hk
        obtain ⟨g, hg, rfl⟩ := List.mem_map.mp this
        exact List.mem_map_of_mem Prod.fst (List.mem_of_mem_filter hg)
      obtain ⟨r, hr⟩ := fieldLast_isSome_of_mem hkmem
      simp [overwriteEntry, hr, decorOf]
  have h1 : (mergeFields entries fields).map (overwriteEntry fields) =
      (mergeFields entries fields).map id := List.map_congr_left hfix
  simpa using h1

/-- After injection, a non-builtin section always contains `inherits`. -/
theorem injectInherits_containsKey {entries : List (String × Item)} (base : BuiltinProfile)
    (hnd : (entries.map Prod.fst).Nodup) :
    containsKey (injectInherits entries base) "inherits" = true := by
  cases hc : containsKey entries "inherits" with
  | true => rw [injectInherits_present base hc hnd]; exact hc
  | false =>
    rw [injectInherits_absent base hc hnd]
    simp [containsKey, lookupItem]

theorem injectInherits_keys_nodup {entries : List (String × Item)} (base : BuiltinProfile)
    (hnd : (entries.map Prod.fst).Nodup) :
    ((injectInherits entries base).map Prod.fst).Nodup := by
  cases hc : containsKey entries "inherits" with
  | true => rw [injectInherits_present base hc hnd]; exact hnd
  | false =>
    rw [injectInherits_absent base hc hnd]
    simp only [List.map_cons, List.nodup_cons]
    exact ⟨containsKey_eq_false.mp hc, hnd⟩

theorem map_fst_map_overwrite (fields : List (String × RawVal))
    (l : List (String × Item)) :
    (l.map (overwriteEntry fields)).map Prod.fst = l.map Prod.fst := by
  rw [List.map_map]
  exact List.map_congr_left (fun p _ => overwriteEntry_fst fields p)

/-- Under a duplicate-free template, the appended block is exactly the
absent fields in template order, with default decoration. -/
theorem appendedEntries_of_nodup (entries : List (String × Item))
    (fields : List (String × RawVal)) (hndf : (fields.map Prod.fst).Nodup) :
    appendedEntries entries fields =
      (fields.filter (fun f => !(containsKey entries f.1))).map
        (fun f => (f.1, Item.value ⟨f.2, Decor.dflt⟩)) := by
  unfold appendedEntries newKeys
  have hsub : ((fields.filter (fun f => !(containsKey entries f.1))).map Prod.fst).Sublist
      (fields.map Prod.fst) := (List.filter_sublist _).map Prod.fst
  rw [dedupKeys_of_nodup (hndf.sublist hsub), List.map_map]
  apply List.map_congr_left
  rintro ⟨k, v⟩ hfm
  have hmem : (k, v) ∈ fields := List.mem_of_mem_filter hfm
  have hlast : fieldLast fields k = some v := fieldLast_of_nodup_mem hndf hmem
  simp [Function.comp, hlast]

/-! ### Claim theorems -/

/-- C10: `apply_profile` calls `set_dotted(true)` on the top-level
`profile` table unconditionally, not only when it creates it: whenever
the input document already has a `profile` table — whatever its dotted
flag and even if none of its contents are otherwise touched — any
successful apply leaves that table marked dotted. -/
theorem claim10_profile_always_dotted
    (doc : Document) (name : String) (t : TomlProfileTemplate) (doc1 : Document)
    (pd : Decor) (pdot : Bool) (pe : List (String × Item))
    (h1 : lookupItem doc.entries "profile" = some (Item.table pd pdot pe))
    (hok : applyProfile doc name t = Except.ok doc1) :
    ∃ pe2, lookupItem doc1.entries "profile" = some (Item.table pd true pe2) := by
  have hc : containsKey doc.entries "profile" = true := by
    unfold containsKey; rw [h1]; rfl
  cases h2 : lookupItem pe name with
  | none =>
    rw [applyProfile_noSection h1 h2] at hok
    injection hok with hd
    subst hd
    exact ⟨_, lookup_setKey_self _ hc⟩
  | some it =>
    cases it with
    | table d dt es =>
      rw [applyProfile_found h1 h2] at hok
      injection hok with hd
      subst hd
      exact ⟨_, lookup_setKey_self _ hc⟩
    | value v =>
      rw [applyProfile_err2 h1 h2 rfl] at hok
      exact absurd hok (by simp)
    | aot =>
      rw [applyProfile_err2 h1 h2 rfl] at hok
      exact absurd hok (by simp)

/-- Witness for C10 at a concrete document whose `profile` table exists
and is not dotted. -/
theorem claim10_witness :
    ∃ pe2, lookupItem
      [("profile", Item.table Decor.dflt true
        [("dev", Item.table Decor.dflt false
          [("debug", Item.value ⟨RawVal.int 0, Decor.dflt⟩)])])]
      "profile" = some (Item.table Decor.dflt true pe2) :=
  claim10_profile_always_dotted
    ⟨[("profile", Item.table Decor.dflt false [])], ""⟩ "dev"
    ⟨BuiltinProfile.dev, [("debug", RawVal.int 0)]⟩
    ⟨[("profile", Item.table Decor.dflt true
      [("dev", Item.table Decor.dflt false
        [("debug", Item.value ⟨RawVal.int 0, Decor.dflt⟩)])])], ""⟩
    Decor.dflt false [] rfl rfl

/-- C2 counterexample: a template field whose key exists in the section
as a nested table (a non-Value item) IS replaced by the template's
value, contradicting the claim that such items are not replaced. -/
theorem claim2_counterexample :
    applyProfile ⟨[("profile", Item.table Decor.dflt true
        [("dev", Item.table Decor.dflt false
          [("debug", Item.table Decor.dflt false [])])])], ""⟩ "dev"
      ⟨BuiltinProfile.dev, [("debug", RawVal.int 0)]⟩ =
      Except.ok ⟨[("profile", Item.table Decor.dflt true
        [("dev", Item.table Decor.dflt false
          [("debug", Item.value ⟨RawVal.int 0, Decor.dflt⟩)])])], ""⟩ ∧
    isTable (Item.table Decor.dflt false []) = true ∧
    isTable (Item.value ⟨RawVal.int 0, Decor.dflt⟩) = false :=
  ⟨rfl, rfl, rfl⟩

/-- C2 (amended): during field merge, an existing key holding a
non-Value item is still replaced by the template's value; only the
decoration-copying is restricted to Value items, so the replacement
carries default decoration. -/
theorem claim2_nonvalue_overwritten
    (entries : List (String × Item)) (fields : List (String × RawVal))
    (hnd : (entries.map Prod.fst).Nodup) (k : String) (it : Item) (raw : RawVal)
    (hmem : lookupItem entries k = some it) (hnv : asValue it = none)
    (hf : fieldLast fields k = some raw) :
    lookupItem (mergeFields entries fields) k = some (Item.value ⟨raw, Decor.dflt⟩) := by
  rw [mergeFields_closed fields entries hnd]
  unfold mergeSpec
  rw [lookupItem_append, lookup_map_overwrite, hmem]
  simp [overwriteEntry, hf, decorOf_of_asValue_none hnv]

/-- Witness for the amended C2. -/
theorem claim2_witness :
    lookupItem (mergeFields [("debug", Item.table Decor.dflt false [])]
      [("debug", RawVal.int 0)]) "debug" =
      some (Item.value ⟨RawVal.int 0, Decor.dflt⟩) :=
  claim2_nonvalue_overwritten [("debug", Item.table Decor.dflt false [])]
    [("debug", RawVal.int 0)] (by simp) "debug" (Item.table Decor.dflt false [])
    (RawVal.int 0) rfl rfl rfl

/-- C5 counterexample: applying a template whose own field list carries
an `inherits` key to the builtin profile `dev` does insert an
`inherits` key into the builtin's section, contradicting the claim that
this never happens for any template. -/
theorem claim5_counterexample :
    applyProfile ⟨[], ""⟩ "dev"
      ⟨BuiltinProfile.dev, [("inherits", RawVal.str "x")]⟩ =
      Except.ok ⟨[("profile", Item.table Decor.dflt true
        [("dev", Item.table Decor.dflt false
          [("inherits", Item.value ⟨RawVal.str "x", Decor.dflt⟩)])])], ""⟩ ∧
    is_builtin_profile "dev" = true ∧
    containsKey [("inherits", Item.value ⟨RawVal.str "x", Decor.dflt⟩)] "inherits" = true :=
  ⟨rfl, rfl, rfl⟩

/-- C5 (amended): for builtin profile names the inheritance-injection
step never runs, so `apply_profile` introduces no `inherits` key beyond
those the template's own field list carries: if neither the resolved
section nor the template's fields contain `inherits`, the resulting
section does not either. -/
theorem claim5_builtin_never_injected
    (doc : Document) (name : String) (t : TomlProfileTemplate) (doc1 : Document)
    (hb : is_builtin_profile name = true)
    (hf : ¬ "inherits" ∈ t.fields.map Prod.fst)
    (hsec : ∀ es, sectionOf doc name = some es → containsKey es "inherits" = false)
    (hok : applyProfile doc name t = Except.ok doc1) :
    ∀ es2, sectionOf doc1 name = some es2 → containsKey es2 "inherits" = false := by
  have hany : t.fields.any (fun f => f.1 = "inherits") = false := by
    cases ha : t.fields.any (fun f => f.1 = "inherits") with
    | false => rfl
    | true =>
      obtain ⟨f, hfm, hfk⟩ := List.any_eq_true.mp ha
      exact absurd (List.mem_map_of_mem Prod.fst hfm)
        (by simpa [of_decide_eq_true hfk] using hf)
  cases h1 : lookupItem doc.entries "profile" with
  | none =>
    rw [applyProfile_noProfile h1] at hok
    injection hok with hd
    subst hd
    intro es2 hes2
    unfold sectionOf at hes2
    rw [lookup_append_fresh _ (lookupItem_eq_none.mp h1)] at hes2
    simp only [lookupItem, if_pos rfl] at hes2
    obtain rfl := Option.some.inj hes2
    rw [hb, if_pos rfl] at *
    rw [containsKey_mergeFields]
    simp [containsKey, lookupItem, hany]
  | some it =>
    cases it with
    | value v =>
      rw [applyProfile_err1 h1 rfl] at hok
      exact absurd hok (by simp)
    | aot =>
      rw [applyProfile_err1 h1 rfl] at hok
      exact absurd hok (by simp)
    | table pd pdot pe =>
      have hc : containsKey doc.entries "profile" = true := by
        unfold containsKey; rw [h1]; rfl
      cases h2 : lookupItem pe name with
      | none =>
        rw [applyProfile_noSection h1 h2] at hok
        injection hok with hd
        subst hd
        intro es2 hes2
        unfold sectionOf at hes2
        simp only [lookup_setKey_self _ hc,
          lookup_append_fresh _ (lookupItem_eq_none.mp h2), Option.some.injEq] at hes2
        subst hes2
        rw [hb, if_pos rfl]
        rw [containsKey_mergeFields]
        simp [containsKey, lookupItem, hany]
      | some it2 =>
        cases it2 with
        | value v =>
          rw [applyProfile_err2 h1 h2 rfl] at hok
          exact absurd hok (by simp)
        | aot =>
          rw [applyProfile_err2 h1 h2 rfl] at hok
          exact absurd hok (by simp)
        | table d dt es =>
          rw [applyProfile_found h1 h2] at hok
          injection hok with hd
          subst hd
          intro es2 hes2
          have hces : containsKey pe name = true := by
            unfold containsKey; rw [h2]; rfl
          unfold sectionOf at hes2
          simp only [lookup_setKey_self _ hc, lookup_setKey_self _ hces,
            Option.some.injEq] at hes2
          subst hes2
          rw [hb, if_pos rfl]
          rw [containsKey_mergeFields]
          have hOld : containsKey es "inherits" = false := by
            apply hsec
            unfold sectionOf
            simp only [h1, h2]
          simp [hOld, hany]

/-- Witness for the amended C5. -/
theorem claim5_witness :
    containsKey [("debug", Item.value ⟨RawVal.int 0, Decor.dflt⟩)] "inherits" = false :=
  claim5_builtin_never_injected ⟨[], ""⟩ "dev"
    ⟨BuiltinProfile.dev, [("debug", RawVal.int 0)]⟩
    ⟨[("profile", Item.table Decor.dflt true
      [("dev", Item.table Decor.dflt false
        [("debug", Item.value ⟨RawVal.int 0, Decor.dflt⟩)])])], ""⟩
    rfl (by simp) (by intro es hes; simp [sectionOf, lookupItem] at hes) rfl
    [("debug", Item.value ⟨RawVal.int 0, Decor.dflt⟩)] rfl

/-- C7: `apply_profile` fails, with a `StructureError`-style message
naming the offending path, exactly when the top-level `profile` item
exists but is not a section, or the `profile.<name>` item exists but is
not a section; on all other inputs it succeeds. -/
theorem claim7_structure_error
    (doc : Document) (name : String) (t : TomlProfileTemplate) (msg : String) :
    applyProfile doc name t = Except.error msg ↔
      ((∃ it, lookupItem doc.entries "profile" = some it ∧ isTable it = false) ∧
        msg = "The profile item in Cargo.toml is not a table") ∨
      ((∃ pd pdot pe, lookupItem doc.entries "profile" = some (Item.table pd pdot pe) ∧
        ∃ it2, lookupItem pe name = some it2 ∧ isTable it2 = false) ∧
        msg = "The profile." ++ name ++ " table in Cargo.toml is not a table") := by
  constructor
  · intro h
    cases h1 : lookupItem doc.entries "profile" with
    | none =>
      rw [applyProfile_noProfile h1] at h
      exact absurd h (by simp)
    | some it =>
      cases it with
      | value v =>
        rw [applyProfile_err1 h1 rfl] at h
        injection h with hmsg
        exact Or.inl ⟨⟨Item.value v, rfl, rfl⟩, hmsg.symm⟩
      | aot =>
        rw [applyProfile_err1 h1 rfl] at h
        injection h with hmsg
        exact Or.inl ⟨⟨Item.aot, rfl, rfl⟩, hmsg.symm⟩
      | table pd pdot pe =>
        cases h2 : lookupItem pe name with
        | none =>
          rw [applyProfile_noSection h1 h2] at h
          exact absurd h (by simp)
        | some it2 =>
          cases it2 with
          | table d dt es =>
            rw [applyProfile_found h1 h2] at h
            exact absurd h (by simp)
          | value v =>
            rw [applyProfile_err2 h1 h2 rfl] at h
            injection h with hmsg
            exact Or.inr ⟨⟨pd, pdot, pe, rfl, Item.value v, h2, rfl⟩, hmsg.symm⟩
          | aot =>
            rw [applyProfile_err2 h1 h2 rfl] at h
            injection h with hmsg
            exact Or.inr ⟨⟨pd, pdot, pe, rfl, Item.aot, h2, rfl⟩, hmsg.symm⟩
  · rintro (⟨⟨it, h1, hnt⟩, rfl⟩ | ⟨⟨pd, pdot, pe, h1, it2, h2, hnt⟩, rfl⟩)
    · exact applyProfile_err1 h1 hnt
    · exact applyProfile_err2 h1 h2 hnt

/-- C3: under distinct section keys and distinct template field keys,
the field merge (a) rewrites the section as: existing entries in place
(overwriting values assigned by the template), followed by the absent
template fields appended in template order with default decoration;
(b) a field whose key exists as a Value is replaced in place at its
original position, with the existing Value's decoration copied onto the
template's value; (c) keys not assigned by the template keep their
position, item and decoration unchanged. -/
theorem claim3_field_merge
    (entries : List (String × Item)) (fields : List (String × RawVal))
    (hnd : (entries.map Prod.fst).Nodup) (hndf : (fields.map Prod.fst).Nodup) :
    mergeFields entries fields =
      entries.map (overwriteEntry fields) ++
        (fields.filter (fun f => !(containsKey entries f.1))).map
          (fun f => (f.1, Item.value ⟨f.2, Decor.dflt⟩)) ∧
    (∀ (i : Nat) (k : String) (u : Val) (v : RawVal),
      entries[i]? = some (k, Item.value u) → (k, v) ∈ fields →
      (mergeFields entries fields)[i]? = some (k, Item.value ⟨v, u.decor⟩)) ∧
    (∀ (i : Nat) (k : String) (it : Item),
      entries[i]? = some (k, it) → ¬ k ∈ fields.map Prod.fst →
      (mergeFields entries fields)[i]? = some (k, it)) := by
  have hclosed := mergeFields_closed fields entries hnd
  refine ⟨?_, ?_, ?_⟩
  · rw [hclosed]
    unfold mergeSpec
    rw [appendedEntries_of_nodup entries fields hndf]
  · intro i k u v hi hmem
    have hlen : i < entries.length := (List.getElem?_eq_some.mp hi).1
    rw [hclosed]
    unfold mergeSpec
    rw [List.getElem?_append_left (by simpa using hlen), List.getElem?_map, hi]
    have hlast : fieldLast fields k = some v := fieldLast_of_nodup_mem hndf hmem
    simp [overwriteEntry, hlast, decorOf]
  · intro i k it hi hnmem
    have hlen : i < entries.length := (List.getElem?_eq_some.mp hi).1
    rw [hclosed]
    unfold mergeSpec
    rw [List.getElem?_append_left (by simpa using hlen), List.getElem?_map, hi]
    have hlast : fieldLast fields k = none := fieldLast_eq_none_of_not_mem hnmem
    simp [overwriteEntry, hlast]

/-- Witness for C3: the in-place overwrite conjunct at a concrete
section and template. -/
theorem claim3_witness :
    (mergeFields
      [("lto", Item.value ⟨RawVal.str "thin", Decor.dflt⟩),
       ("debug", Item.value ⟨RawVal.int 1, ⟨"\n", " = ", "   # Foo"⟩⟩)]
      [("debug", RawVal.int 0), ("strip", RawVal.bool true)])[1]? =
      some ("debug", Item.value ⟨RawVal.int 0, ⟨"\n", " = ", "   # Foo"⟩⟩) :=
  (claim3_field_merge
    [("lto", Item.value ⟨RawVal.str "thin", Decor.dflt⟩),
     ("debug", Item.value ⟨RawVal.int 1, ⟨"\n", " = ", "   # Foo"⟩⟩)]
    [("debug", RawVal.int 0), ("strip", RawVal.bool true)]
    (by decide) (by decide)).2.1 1 "debug" ⟨RawVal.int 1, ⟨"\n", " = ", "   # Foo"⟩⟩
    (RawVal.int 0) rfl (by simp)

/-- C4 counterexample: when the template's own field list contains an
`inherits` key, the injected `inherits` value is overwritten by the
field's value during the merge, so the first key's value is not the
template's declared base name. -/
theorem claim4_counterexample :
    applyProfile ⟨[], ""⟩ "custom1"
      ⟨BuiltinProfile.dev, [("inherits", RawVal.int 5)]⟩ =
      Except.ok ⟨[("profile", Item.table Decor.dflt true
        [("custom1", Item.table Decor.dflt false
          [("inherits", Item.value ⟨RawVal.int 5, Decor.dflt⟩)])])], ""⟩ ∧
    RawVal.int 5 ≠ RawVal.str (builtinName BuiltinProfile.dev) :=
  ⟨rfl, by decide⟩

/-- C4 (amended): for a non-builtin profile whose existing section has
no `inherits` key, provided the template's field list does not itself
contain an `inherits` key, after apply the very first key of the
section is `inherits` with a string value equal to the template's
declared base, and all pre-existing keys retain their original relative
order after it (followed only by newly appended template keys). -/
theorem claim4_inherits_injected_first
    (doc : Document) (name : String) (t : TomlProfileTemplate) (doc1 : Document)
    (pd : Decor) (pdot : Bool) (pe : List (String × Item))
    (d : Decor) (dt : Bool) (es : List (String × Item))
    (hb : is_builtin_profile name = false)
    (h1 : lookupItem doc.entries "profile" = some (Item.table pd pdot pe))
    (h2 : lookupItem pe name = some (Item.table d dt es))
    (hni : containsKey es "inherits" = false)
    (hnd : (es.map Prod.fst).Nodup)
    (hf : ¬ "inherits" ∈ t.fields.map Prod.fst)
    (hok : applyProfile doc name t = Except.ok doc1) :
    ∃ tail, sectionOf doc1 name =
        some (("inherits",
          Item.value ⟨RawVal.str (builtinName t.inherits), Decor.dflt⟩) :: tail) ∧
      ∃ fresh, tail.map Prod.fst = es.map Prod.fst ++ fresh := by
  rw [applyProfile_found h1 h2] at hok
  injection hok with hd
  subst hd
  have hc : containsKey doc.entries "profile" = true := by
    unfold containsKey; rw [h1]; rfl
  have hces : containsKey pe name = true := by
    unfold containsKey; rw [h2]; rfl
  have hinj : injectInherits es t.inherits =
      ("inherits", Item.value ⟨RawVal.str (builtinName t.inherits), Decor.dflt⟩) :: es :=
    injectInherits_absent t.inherits hni hnd
  have hndi : ((("inherits",
      Item.value ⟨RawVal.str (builtinName t.inherits), Decor.dflt⟩) :: es).map
        Prod.fst).Nodup := by
    simp only [List.map_cons, List.nodup_cons]
    exact ⟨containsKey_eq_false.mp hni, hnd⟩
  have hovinh : overwriteEntry t.fields
      ("inherits", Item.value ⟨RawVal.str (builtinName t.inherits), Decor.dflt⟩) =
      ("inherits", Item.value ⟨RawVal.str (builtinName t.inherits), Decor.dflt⟩) := by
    unfold overwriteEntry
    rw [fieldLast_eq_none_of_not_mem hf]
  refine ⟨es.map (overwriteEntry t.fields) ++
    appendedEntries (("inherits",
      Item.value ⟨RawVal.str (builtinName t.inherits), Decor.dflt⟩) :: es) t.fields,
    ?_, ?_⟩
  · unfold sectionOf
    simp only [lookup_setKey_self _ hc, lookup_setKey_self _ hces]
    rw [hb, if_neg (by simp), hinj, mergeFields_closed _ _ hndi]
    unfold mergeSpec
    simp only [List.map_cons, List.cons_append]
    rw [hovinh]
  · refine ⟨(appendedEntries (("inherits",
      Item.value ⟨RawVal.str (builtinName t.inherits), Decor.dflt⟩) :: es)
        t.fields).map Prod.fst, ?_⟩
    rw [List.map_append, map_fst_map_overwrite]

/-- Witness for the amended C4. -/
theorem claim4_witness :
    ∃ tail, sectionOf
      ⟨[("profile", Item.table Decor.dflt true
        [("custom1", Item.table Decor.dflt false
          [("inherits", Item.value ⟨RawVal.str "release", Decor.dflt⟩),
           ("debug", Item.value ⟨RawVal.int 0, Decor.dflt⟩)])])], ""⟩ "custom1" =
        some (("inherits",
          Item.value ⟨RawVal.str (builtinName BuiltinProfile.release), Decor.dflt⟩) :: tail) ∧
      ∃ fresh, tail.map Prod.fst = ["debug"] ++ fresh :=
  claim4_inherits_injected_first
    ⟨[("profile", Item.table Decor.dflt true
      [("custom1", Item.table Decor.dflt false
        [("debug", Item.value ⟨RawVal.int 1, Decor.dflt⟩)])])], ""⟩
    "custom1" ⟨BuiltinProfile.release, [("debug", RawVal.int 0)]⟩
    ⟨[("profile", Item.table Decor.dflt true
      [("custom1", Item.table Decor.dflt false
        [("inherits", Item.value ⟨RawVal.str "release", Decor.dflt⟩),
         ("debug", Item.value ⟨RawVal.int 0, Decor.dflt⟩)])])], ""⟩
    Decor.dflt true [("custom1", Item.table Decor.dflt false
      [("debug", Item.value ⟨RawVal.int 1, Decor.dflt⟩)])]
    Decor.dflt false [("debug", Item.value ⟨RawVal.int 1, Decor.dflt⟩)]
    rfl rfl rfl rfl (by decide) (by decide) rfl

/-- C1 counterexample: a template whose field list itself assigns
`inherits` does change the value of a pre-existing `inherits` key of a
non-builtin profile (its position and decoration stay, but the value is
overwritten), so "value unchanged regardless of template content"
fails. -/
theorem claim1_counterexample :
    applyProfile ⟨[("profile", Item.table Decor.dflt true
        [("custom1", Item.table Decor.dflt false
          [("inherits", Item.value ⟨RawVal.str "dev", ⟨"\n", " = ", " # keep"⟩⟩)])])], ""⟩
      "custom1" ⟨BuiltinProfile.release, [("inherits", RawVal.str "weird")]⟩ =
      Except.ok ⟨[("profile", Item.table Decor.dflt true
        [("custom1", Item.table Decor.dflt false
          [("inherits", Item.value ⟨RawVal.str "weird", ⟨"\n", " = ", " # keep"⟩⟩)])])], ""⟩ ∧
    RawVal.str "weird" ≠ RawVal.str "dev" :=
  ⟨rfl, by decide⟩

/-- C1 (amended): for a non-builtin profile whose section already
contains an `inherits` key at any position, provided the template's
field list does not itself contain an `inherits` key, apply leaves that
entry — value, decoration and position in the key order — exactly as it
was. -/
theorem claim1_existing_inherits_untouched
    (doc : Document) (name : String) (t : TomlProfileTemplate) (doc1 : Document)
    (pd : Decor) (pdot : Bool) (pe : List (String × Item))
    (d : Decor) (dt : Bool) (es : List (String × Item))
    (hb : is_builtin_profile name = false)
    (h1 : lookupItem doc.entries "profile" = some (Item.table pd pdot pe))
    (h2 : lookupItem pe name = some (Item.table d dt es))
    (hmem : containsKey es "inherits" = true)
    (hnd : (es.map Prod.fst).Nodup)
    (hf : ¬ "inherits" ∈ t.fields.map Prod.fst)
    (hok : applyProfile doc name t = Except.ok doc1) :
    ∃ es2, sectionOf doc1 name = some es2 ∧
      ∀ (i : Nat) (it : Item), es[i]? = some ("inherits", it) →
        es2[i]? = some ("inherits", it) := by
  rw [applyProfile_found h1 h2] at hok
  injection hok with hd
  subst hd
  have hc : containsKey doc.entries "profile" = true := by
    unfold containsKey; rw [h1]; rfl
  have hces : containsKey pe name = true := by
    unfold containsKey; rw [h2]; rfl
  have hinj : injectInherits es t.inherits = es := injectInherits_present t.inherits hmem hnd
  refine ⟨mergeFields es t.fields, ?_, ?_⟩
  · unfold sectionOf
    simp only [lookup_setKey_self _ hc, lookup_setKey_self _ hces]
    rw [hb, if_neg (by simp), hinj]
  · intro i it hi
    have hlen : i < es.length := (List.getElem?_eq_some.mp hi).1
    rw [mergeFields_closed _ _ hnd]
    unfold mergeSpec
    rw [List.getElem?_append_left (by simpa using hlen), List.getElem?_map, hi]
    have hov : overwriteEntry t.fields ("inherits", it) = ("inherits", it) := by
      unfold overwriteEntry
      rw [fieldLast_eq_none_of_not_mem hf]
    simp [hov]

/-- Witness for the amended C1. -/
theorem claim1_witness :
    ∃ es2, sectionOf
      ⟨[("profile", Item.table Decor.dflt true
        [("custom1", Item.table Decor.dflt false
          [("inherits", Item.value ⟨RawVal.str "dev", ⟨"\n", " = ", " # keep"⟩⟩),
           ("debug", Item.value ⟨RawVal.int 0, Decor.dflt⟩)])])], ""⟩ "custom1" =
        some es2 ∧
      ∀ (i : Nat) (it : Item),
        [("inherits", Item.value ⟨RawVal.str "dev", ⟨"\n", " = ", " # keep"⟩⟩),
         ("debug", Item.value ⟨RawVal.int 1, Decor.dflt⟩)][i]? =
          some ("inherits", it) →
        es2[i]? = some ("inherits", it) :=
  claim1_existing_inherits_untouched
    ⟨[("profile", Item.table Decor.dflt true
      [("custom1", Item.table Decor.dflt false
        [("inherits", Item.value ⟨RawVal.str "dev", ⟨"\n", " = ", " # keep"⟩⟩),
         ("debug", Item.value ⟨RawVal.int 1, Decor.dflt⟩)])])], ""⟩
    "custom1" ⟨BuiltinProfile.dev, [("debug", RawVal.int 0)]⟩
    ⟨[("profile", Item.table Decor.dflt true
      [("custom1", Item.table Decor.dflt false
        [("inherits", Item.value ⟨RawVal.str "dev", ⟨"\n", " = ", " # keep"⟩⟩),
         ("debug", Item.value ⟨RawVal.int 0, Decor.dflt⟩)])])], ""⟩
    Decor.dflt true [("custom1", Item.table Decor.dflt false
      [("inherits", Item.value ⟨RawVal.str "dev", ⟨"\n", " = ", " # keep"⟩⟩),
       ("debug", Item.value ⟨RawVal.int 1, Decor.dflt⟩)])]
    Decor.dflt false
    [("inherits", Item.value ⟨RawVal.str "dev", ⟨"\n", " = ", " # keep"⟩⟩),
     ("debug", Item.value ⟨RawVal.int 1, Decor.dflt⟩)]
    rfl rfl rfl rfl (by decide) (by decide) rfl

/-- C6: on a document with no top-level `profile` item, apply succeeds
and appends a dotted `profile` table containing exactly the requested
profile, populated with exactly the template's fields in template order
(preceded by the injected `inherits` key when the name is not builtin),
provided the template's field keys are distinct and (for non-builtin
names) do not themselves include `inherits`. -/
theorem claim6_section_autocreated
    (doc : Document) (name : String) (t : TomlProfileTemplate)
    (h1 : lookupItem doc.entries "profile" = none)
    (hndf : (t.fields.map Prod.fst).Nodup)
    (hf : is_builtin_profile name = false → ¬ "inherits" ∈ t.fields.map Prod.fst) :
    applyProfile doc name t = Except.ok
      ⟨doc.entries ++ [("profile", Item.table Decor.dflt true
        [(name, Item.table Decor.dflt false
          ((if is_builtin_profile name then ([] : List (String × Item))
            else [("inherits",
              Item.value ⟨RawVal.str (builtinName t.inherits), Decor.dflt⟩)]) ++
           t.fields.map (fun f => (f.1, Item.value ⟨f.2, Decor.dflt⟩))))])],
        doc.trailer⟩ := by
  rw [applyProfile_noProfile h1]
  have hmf : mergeFields
      (if is_builtin_profile name then [] else injectInherits [] t.inherits) t.fields =
      (if is_builtin_profile name then ([] : List (String × Item))
        else [("inherits",
          Item.value ⟨RawVal.str (builtinName t.inherits), Decor.dflt⟩)]) ++
       t.fields.map (fun f => (f.1, Item.value ⟨f.2, Decor.dflt⟩)) := by
    by_cases hb : is_builtin_profile name = true
    · rw [hb, if_pos rfl, if_pos rfl]
      rw [mergeFields_closed _ _ (by simp)]
      unfold mergeSpec
      rw [appendedEntries_of_nodup _ _ hndf]
      have hfil : t.fields.filter
          (fun f => !(containsKey ([] : List (String × Item)) f.1)) = t.fields :=
        List.filter_eq_self.mpr (fun f _ => rfl)
      simp [hfil]
    · have hb2 : is_builtin_profile name = false := by simpa using hb
      have hff : ¬ "inherits" ∈ t.fields.map Prod.fst := hf hb2
      rw [hb2, if_neg (by simp), if_neg (by simp)]
      rw [@injectInherits_absent ([] : List (String × Item)) t.inherits rfl (by simp)]
      rw [mergeFields_closed _ _ (by simp)]
      unfold mergeSpec
      rw [appendedEntries_of_nodup _ _ hndf]
      have hov : overwriteEntry t.fields
          ("inherits", Item.value ⟨RawVal.str (builtinName t.inherits), Decor.dflt⟩) =
          ("inherits", Item.value ⟨RawVal.str (builtinName t.inherits), Decor.dflt⟩) := by
        unfold overwriteEntry
        rw [fieldLast_eq_none_of_not_mem hff]
      have hfil : t.fields.filter
          (fun f => !(containsKey [("inherits",
            Item.value ⟨RawVal.str (builtinName t.inherits), Decor.dflt⟩)] f.1)) =
          t.fields := by
        apply List.filter_eq_self.mpr
        intro f hfm
        rw [containsKey_singleton]
        have : ¬ "inherits" = f.1 := by
          intro hc
          exact hff (hc ▸ List.mem_map_of_mem Prod.fst hfm)
        simp [this]
      simp [hov, hfil]
  rw [hmf]

/-- Witness for C6 at a concrete document and template. -/
theorem claim6_witness :
    applyProfile ⟨[("package", Item.value ⟨RawVal.str "foo", Decor.dflt⟩)], "\n"⟩
      "custom1" ⟨BuiltinProfile.dev, [("debug", RawVal.int 0)]⟩ = Except.ok
      ⟨[("package", Item.value ⟨RawVal.str "foo", Decor.dflt⟩),
        ("profile", Item.table Decor.dflt true
          [("custom1", Item.table Decor.dflt false
            [("inherits", Item.value ⟨RawVal.str "dev", Decor.dflt⟩),
             ("debug", Item.value ⟨RawVal.int 0, Decor.dflt⟩)])])], "\n"⟩ :=
  claim6_section_autocreated
    ⟨[("package", Item.value ⟨RawVal.str "foo", Decor.dflt⟩)], "\n"⟩ "custom1"
    ⟨BuiltinProfile.dev, [("debug", RawVal.int 0)]⟩ rfl (by decide) (fun _ => by decide)

/-- Merging the template once more — injection included — is the
identity on an already-applied section. -/
theorem secondMerge_eq (name : String) (t : TomlProfileTemplate)
    (es : List (String × Item)) (hnd : (es.map Prod.fst).Nodup) :
    mergeFields
      (if is_builtin_profile name then
        mergeFields (if is_builtin_profile name then es
          else injectInherits es t.inherits) t.fields
       else injectInherits (mergeFields (if is_builtin_profile name then es
          else injectInherits es t.inherits) t.fields) t.inherits)
      t.fields =
    mergeFields (if is_builtin_profile name then es
      else injectInherits es t.inherits) t.fields := by
  by_cases hb : is_builtin_profile name = true
  · rw [hb]
    exact mergeFields_idem t.fields es hnd
  · have hb2 : is_builtin_profile name = false := by simpa using hb
    rw [hb2]
    rw [if_neg (by simp), if_neg (by simp)]
    have hSnd := injectInherits_keys_nodup t.inherits hnd
    have hE1nd := mergeFields_keys_nodup t.fields (injectInherits es t.inherits) hSnd
    have hcontains : containsKey
        (mergeFields (injectInherits es t.inherits) t.fields) "inherits" = true := by
      rw [containsKey_mergeFields, injectInherits_containsKey t.inherits hnd]
      rfl
    rw [injectInherits_present t.inherits hcontains hE1nd]
    exact mergeFields_idem t.fields (injectInherits es t.inherits) hSnd

/-- C8: applying the same template to the same profile twice yields the
same document as applying it once — the second apply returns the first
apply's output unchanged, decoration and key order included. -/
theorem claim8_idempotent
    (doc : Document) (name : String) (t : TomlProfileTemplate) (doc1 : Document)
    (hsec : ∀ (pd : Decor) (pdot : Bool) (pe : List (String × Item)),
      lookupItem doc.entries "profile" = some (Item.table pd pdot pe) →
      ∀ (d : Decor) (dt : Bool) (es : List (String × Item)),
        lookupItem pe name = some (Item.table d dt es) → (es.map Prod.fst).Nodup)
    (hok : applyProfile doc name t = Except.ok doc1) :
    applyProfile doc1 name t = Except.ok doc1 := by
  cases h1 : lookupItem doc.entries "profile" with
  | none =>
    rw [applyProfile_noProfile h1] at hok
    injection hok with hd
    subst hd
    have hfresh := lookupItem_eq_none.mp h1
    have h1' := lookup_append_fresh (l := doc.entries)
      (Item.table Decor.dflt true
        [(name, Item.table Decor.dflt false (mergeFields
          (if is_builtin_profile name then [] else injectInherits [] t.inherits)
          t.fields))]) hfresh
    have h2' : lookupItem
        [(name, Item.table Decor.dflt false (mergeFields
          (if is_builtin_profile name then [] else injectInherits [] t.inherits)
          t.fields))] name =
        some (Item.table Decor.dflt false (mergeFields
          (if is_builtin_profile name then [] else injectInherits [] t.inherits)
          t.fields)) := by
      simp [lookupItem]
    rw [applyProfile_found h1' h2']
    rw [secondMerge_eq name t [] (by simp)]
    rw [setKey_cons_self]
    rw [setKey_append_last _ _ hfresh]
  | some it =>
    cases it with
    | value v =>
      rw [applyProfile_err1 h1 rfl] at hok
      exact absurd hok (by simp)
    | aot =>
      rw [applyProfile_err1 h1 rfl] at hok
      exact absurd hok (by simp)
    | table pd pdot pe =>
      have hc : containsKey doc.entries "profile" = true := by
        unfold containsKey; rw [h1]; rfl
      cases h2 : lookupItem pe name with
      | none =>
        rw [applyProfile_noSection h1 h2] at hok
        injection hok with hd
        subst hd
        have hfresh2 := lookupItem_eq_none.mp h2
        have h1' := lookup_setKey_self
          (Item.table pd true (pe ++ [(name, Item.table Decor.dflt false
            (mergeFields (if is_builtin_profile name then []
              else injectInherits [] t.inherits) t.fields))])) hc
        have h2' := lookup_append_fresh (l := pe)
          (Item.table Decor.dflt false (mergeFields
            (if is_builtin_profile name then [] else injectInherits [] t.inherits)
            t.fields)) hfresh2
        rw [applyProfile_found h1' h2']
        rw [secondMerge_eq name t [] (by simp)]
        rw [setKey_append_last _ _ hfresh2]
        rw [setKey_self (lookup_setKey_self _ hc)]
      | some it2 =>
        cases it2 with
        | value v =>
          rw [applyProfile_err2 h1 h2 rfl] at hok
          exact absurd hok (by simp)
        | aot =>
          rw [applyProfile_err2 h1 h2 rfl] at hok
          exact absurd hok (by simp)
        | table d dt es =>
          have hnd : (es.map Prod.fst).Nodup := hsec pd pdot pe h1 d dt es h2
          rw [applyProfile_found h1 h2] at hok
          injection hok with hd
          subst hd
          have hces : containsKey pe name = true := by
            unfold containsKey; rw [h2]; rfl
          have h2' := lookup_setKey_self
            (Item.table d dt (mergeFields (if is_builtin_profile name then es
              else injectInherits es t.inherits) t.fields)) hces
          have h1' := lookup_setKey_self
            (Item.table pd true (setKey pe name (Item.table d dt
              (mergeFields (if is_builtin_profile name then es
                else injectInherits es t.inherits) t.fields)))) hc
          rw [applyProfile_found h1' h2']
          rw [secondMerge_eq name t es hnd]
          rw [setKey_self h2']
          rw [setKey_self h1']

/-- Witness for C8 at a concrete document and template. -/
theorem claim8_witness :
    applyProfile
      ⟨[("profile", Item.table Decor.dflt true
        [("custom1", Item.table Decor.dflt false
          [("inherits", Item.value ⟨RawVal.str "dev", Decor.dflt⟩),
           ("debug", Item.value ⟨RawVal.int 0, Decor.dflt⟩)])])], ""⟩
      "custom1" ⟨BuiltinProfile.dev, [("debug", RawVal.int 0)]⟩ = Except.ok
      ⟨[("profile", Item.table Decor.dflt true
        [("custom1", Item.table Decor.dflt false
          [("inherits", Item.value ⟨RawVal.str "dev", Decor.dflt⟩),
           ("debug", Item.value ⟨RawVal.int 0, Decor.dflt⟩)])])], ""⟩ :=
  claim8_idempotent ⟨[], ""⟩ "custom1" ⟨BuiltinProfile.dev, [("debug", RawVal.int 0)]⟩
    ⟨[("profile", Item.table Decor.dflt true
      [("custom1", Item.table Decor.dflt false
        [("inherits", Item.value ⟨RawVal.str "dev", Decor.dflt⟩),
         ("debug", Item.value ⟨RawVal.int 0, Decor.dflt⟩)])])], ""⟩
    (by intro pd pdot pe h; simp [lookupItem] at h) rfl

/-! ### Round-trip lemmas for the parser -/

theorem splitLines_ne_nil (cs : List Char) : splitLines cs ≠ [] := by
  cases cs with
  | nil => simp [splitLines]
  | cons c rest =>
    by_cases h : c = '\n'
    · simp [splitLines, h]
    · simp only [splitLines, if_neg h]
      cases hs : splitLines rest <;> simp

theorem flatten_splitLines (cs : List Char) : (splitLines cs).flatten = cs := by
  induction cs with
  | nil => simp [splitLines]
  | cons c rest ih =>
    by_cases h : c = '\n'
    · subst h
      simp [splitLines, ih]
    · simp only [splitLines, if_neg h]
      cases hs : splitLines rest with
      | nil => exact absurd hs (splitLines_ne_nil rest)
      | cons l ls =>
        rw [hs] at ih
        simpa using ih

theorem spanL_append (p : Char → Bool) (l : List Char) :
    (spanL p l).1 ++ (spanL p l).2 = l := by
  induction l with
  | nil => rfl
  | cons c rest ih =>
    by_cases h : p c <;> simp [spanL, h, ih]

theorem splitNl_append (l : List Char) : (splitNl l).1 ++ (splitNl l).2 = l := by
  induction l with
  | nil => rfl
  | cons c rest ih =>
    cases rest with
    | nil =>
      by_cases h : c = '\n' <;> simp [splitNl, h]
    | cons c2 rest2 =>
      show ((splitNl (c :: c2 :: rest2)).1 ++ (splitNl (c :: c2 :: rest2)).2 = _)
      simp only [splitNl, List.cons_append]
      rw [ih]

theorem stripNeg_split (l : List Char) :
    ((stripNeg l).1 = true ∧ l = '-' :: (stripNeg l).2) ∨
    ((stripNeg l).1 = false ∧ (stripNeg l).2 = l) := by
  cases l with
  | nil => exact Or.inr ⟨rfl, rfl⟩
  | cons c rest =>
    by_cases hc : c = '-'
    · subst hc
      exact Or.inl ⟨by simp [stripNeg], by simp [stripNeg]⟩
    · exact Or.inr ⟨by simp [stripNeg, hc], by simp [stripNeg, hc]⟩

theorem take_one_split {l : List Char} {c : Char} (h : l.take 1 = [c]) :
    l = c :: l.drop 1 := by
  conv_lhs => rw [← List.take_append_drop 1 l]
  rw [h]
  rfl

theorem tryVal_spec {l : List Char} {v : RawVal} {vtext post : List Char}
    (h : tryVal l = some (v, vtext, post)) :
    renderRaw v = vtext ∧ vtext ++ post = l := by
  unfold tryVal at h
  by_cases h4 : l.take 4 = "true".data
  · rw [if_pos h4] at h
    obtain ⟨rfl, rfl, rfl⟩ : RawVal.bool true = v ∧ "true".data = vtext ∧ l.drop 4 = post := by
      simpa using h
    exact ⟨rfl, by rw [← h4]; exact List.take_append_drop 4 l⟩
  rw [if_neg h4] at h
  by_cases h5 : l.take 5 = "false".data
  · rw [if_pos h5] at h
    obtain ⟨rfl, rfl, rfl⟩ : RawVal.bool false = v ∧ "false".data = vtext ∧ l.drop 5 = post := by
      simpa using h
    exact ⟨rfl, by rw [← h5]; exact List.take_append_drop 5 l⟩
  rw [if_neg h5] at h
  by_cases hq : l.take 1 = ['"']
  · rw [if_pos hq] at h
    by_cases hq2 : (spanL (fun c => !(c = '"')) (l.drop 1)).2.take 1 = ['"']
    · rw [if_pos hq2] at h
      obtain ⟨rfl, rfl, rfl⟩ :
          RawVal.str ⟨(spanL (fun c => !(c = '"')) (l.drop 1)).1⟩ = v ∧
          ('"' :: (spanL (fun c => !(c = '"')) (l.drop 1)).1 ++ ['"']) = vtext ∧
          (spanL (fun c => !(c = '"')) (l.drop 1)).2.drop 1 = post := by
        simpa using h
      refine ⟨rfl, ?_⟩
      have hd := take_one_split hq
      have hs := spanL_append (fun c => !(c = '"')) (l.drop 1)
      have hs2 := take_one_split hq2
      calc ('"' :: (spanL (fun c => !(c = '"')) (l.drop 1)).1 ++ ['"']) ++
            (spanL (fun c => !(c = '"')) (l.drop 1)).2.drop 1
          = '"' :: ((spanL (fun c => !(c = '"')) (l.drop 1)).1 ++
              ('"' :: (spanL (fun c => !(c = '"')) (l.drop 1)).2.drop 1)) := by simp
        _ = '"' :: ((spanL (fun c => !(c = '"')) (l.drop 1)).1 ++
              (spanL (fun c => !(c = '"')) (l.drop 1)).2) := by rw [← hs2]
        _ = '"' :: l.drop 1 := by rw [hs]
        _ = l := hd.symm
    · rw [if_neg hq2] at h
      cases h
  · rw [if_neg hq] at h
    by_cases he : (spanL Char.isDigit (stripNeg l).2).1.isEmpty
    · rw [if_pos he] at h
      cases h
    · rw [if_neg he] at h
      by_cases hg : renderRaw (RawVal.int
          (if (stripNeg l).1 then
            -(((spanL Char.isDigit (stripNeg l).2).1.foldl
              (fun acc c => acc * 10 + (c.toNat - 48)) 0 : Nat) : Int)
          else (((spanL Char.isDigit (stripNeg l).2).1.foldl
              (fun acc c => acc * 10 + (c.toNat - 48)) 0 : Nat) : Int))) =
          (if (stripNeg l).1 then '-' :: (spanL Char.isDigit (stripNeg l).2).1
           else (spanL Char.isDigit (stripNeg l).2).1)
      · rw [if_pos hg] at h
        obtain ⟨rfl, rfl, rfl⟩ :
            RawVal.int (if (stripNeg l).1 then
              -(((spanL Char.isDigit (stripNeg l).2).1.foldl
                (fun acc c => acc * 10 + (c.toNat - 48)) 0 : Nat) : Int)
            else (((spanL Char.isDigit (stripNeg l).2).1.foldl
                (fun acc c => acc * 10 + (c.toNat - 48)) 0 : Nat) : Int)) = v ∧
            (if (stripNeg l).1 then '-' :: (spanL Char.isDigit (stripNeg l).2).1
             else (spanL Char.isDigit (stripNeg l).2).1) = vtext ∧
            (spanL Char.isDigit (stripNeg l).2).2 = post := by
          simpa using h
        refine ⟨hg, ?_⟩
        have hds := spanL_append Char.isDigit (stripNeg l).2
        rcases stripNeg_split l with ⟨hneg, hl⟩ | ⟨hneg, hl⟩
        · rw [if_pos hneg]
          calc ('-' :: (spanL Char.isDigit (stripNeg l).2).1) ++
                (spanL Char.isDigit (stripNeg l).2).2
              = '-' :: ((spanL Char.isDigit (stripNeg l).2).1 ++
                  (spanL Char.isDigit (stripNeg l).2).2) := rfl
            _ = '-' :: (stripNeg l).2 := by rw [hds]
            _ = l := hl.symm
        · rw [if_neg (by simp [hneg])]
          rw [hds, hl]
      · rw [if_neg hg] at h
        cases h

/-- A successful classification decomposes the line body exactly. -/
theorem classify_spec {core : List Char} {shape : LineShape}
    (h : classifyLine core = some shape) :
    shape = LineShape.decorLine ∨
    (∃ ws n post, shape = LineShape.header1 ws n post ∧
      core = ws ++ '[' :: (n ++ ']' :: post)) ∨
    (∃ ws n1 n2 post, shape = LineShape.header2 ws n1 n2 post ∧
      core = ws ++ '[' :: (n1 ++ '.' :: (n2 ++ ']' :: post))) ∨
    (∃ ws key eqt v post, shape = LineShape.kvLine ws key eqt v post ∧
      core = ws ++ (key ++ (eqt ++ (renderRaw v ++ post)))) := by
  simp only [classifyLine] at h
  have e0 := spanL_append isWsChar core
  by_cases c1 : (spanL isWsChar core).2.isEmpty
  · rw [if_pos c1] at h
    exact Or.inl (Option.some.inj h).symm
  rw [if_neg c1] at h
  by_cases c2 : (spanL isWsChar core).2.take 1 = ['#']
  · rw [if_pos c2] at h
    exact Or.inl (Option.some.inj h).symm
  rw [if_neg c2] at h
  by_cases c3 : (spanL isWsChar core).2.take 1 = ['[']
  · rw [if_pos c3] at h
    have e1 := take_one_split c3
    have e2 := spanL_append isIdentChar ((spanL isWsChar core).2.drop 1)
    by_cases c4 : (spanL isIdentChar ((spanL isWsChar core).2.drop 1)).1.isEmpty
    · rw [if_pos c4] at h
      cases h
    rw [if_neg c4] at h
    by_cases c5 : (spanL isIdentChar ((spanL isWsChar core).2.drop 1)).2.take 1 = [']']
    · rw [if_pos c5] at h
      refine Or.inr (Or.inl ⟨_, _, _, (Option.some.inj h).symm, ?_⟩)
      have e3 := take_one_split c5
      rw [← e3, e2, ← e1, e0]
    rw [if_neg c5] at h
    by_cases c6 : (spanL isIdentChar ((spanL isWsChar core).2.drop 1)).2.take 1 = ['.']
    · rw [if_pos c6] at h
      have e3 := take_one_split c6
      have e4 := spanL_append isIdentChar
        ((spanL isIdentChar ((spanL isWsChar core).2.drop 1)).2.drop 1)
      by_cases c7 : (spanL isIdentChar
          ((spanL isIdentChar ((spanL isWsChar core).2.drop 1)).2.drop 1)).1.isEmpty
      · rw [if_pos c7] at h
        cases h
      rw [if_neg c7] at h
      by_cases c8 : (spanL isIdentChar
          ((spanL isIdentChar ((spanL isWsChar core).2.drop 1)).2.drop 1)).2.take 1 = [']']
      · rw [if_pos c8] at h
        refine Or.inr (Or.inr (Or.inl ⟨_, _, _, _, (Option.some.inj h).symm, ?_⟩))
        have e5 := take_one_split c8
        rw [← e5, e4, ← e3, e2, ← e1, e0]
      · rw [if_neg c8] at h
        cases h
    · rw [if_neg c6] at h
      cases h
  · rw [if_neg c3] at h
    have e2 := spanL_append isIdentChar (spanL isWsChar core).2
    by_cases c9 : (spanL isIdentChar (spanL isWsChar core).2).1.isEmpty
    · rw [if_pos c9] at h
      cases h
    rw [if_neg c9] at h
    have e3 := spanL_append isWsChar (spanL isIdentChar (spanL isWsChar core).2).2
    by_cases c10 : (spanL isWsChar
        (spanL isIdentChar (spanL isWsChar core).2).2).2.take 1 = ['=']
    · rw [if_pos c10] at h
      have e4 := take_one_split c10
      have e5 := spanL_append isWsChar
        ((spanL isWsChar (spanL isIdentChar (spanL isWsChar core).2).2).2.drop 1)
      cases htv : tryVal (spanL isWsChar
          ((spanL isWsChar (spanL isIdentChar (spanL isWsChar core).2).2).2.drop 1)).2 with
      | none =>
        rw [htv] at h
        cases h
      | some trip =>
        obtain ⟨v, vtext, post⟩ := trip
        rw [htv] at h
        obtain ⟨hrv, hvp⟩ := tryVal_spec htv
        refine Or.inr (Or.inr (Or.inr ⟨_, _, _, _, _, (Option.some.inj h).symm, ?_⟩))
        rw [hrv, hvp, List.append_assoc, List.cons_append, e5, ← e4, e3, e2, e0]
    · rw [if_neg c10] at h
      cases h

theorem renderEntriesAux_append (parent : Option String) (l1 l2 : List (String × Item)) :
    renderEntriesAux parent (l1 ++ l2) =
      renderEntriesAux parent l1 ++ renderEntriesAux parent l2 := by
  induction l1 with
  | nil => simp [renderEntriesAux]
  | cons e rest ih => simp [renderEntriesAux, ih, List.append_assoc]

theorem renderEntriesAux_singleton (parent : Option String) (e : String × Item) :
    renderEntriesAux parent [e] = renderItemEntry parent e := by
  simp [renderEntriesAux]

theorem mk_data (l : List Char) : (String.mk l).data = l := rfl

theorem pathString_some_data (p k : String) :
    (pathString (some p) k).data = p.data ++ '.' :: k.data := by
  show (p ++ "." ++ k).data = _
  rw [String.data_append, String.data_append]
  simp

theorem renderItemEntry_value (parent : Option String) (k : String) (v : Val) :
    renderItemEntry parent (k, Item.value v) =
      v.decor.pre.data ++ k.data ++ v.decor.eq.data ++ renderRaw v.raw ++ v.decor.post.data := by
  simp [renderItemEntry]

theorem renderItemEntry_table (parent : Option String) (k : String) (dec : Decor)
    (dotted : Bool) (entries : List (String × Item)) :
    renderItemEntry parent (k, Item.table dec dotted entries) =
      (if dotted then []
       else dec.pre.data ++ '[' :: (pathString parent k).data ++ ']' :: dec.post.data)
      ++ renderEntriesAux (some (pathString parent k)) entries := by
  simp [renderItemEntry]

/-- Each consumed line extends the text a parser state stands for by
exactly that line. -/
theorem parseStep_spec {st : PState} {line : List Char} {st2 : PState}
    (h : parseStep st line = some st2) :
    renderState st2 = renderState st ++ line := by
  have hnl := splitNl_append line
  simp only [parseStep] at h
  cases hcl : classifyLine (splitNl line).1 with
  | none => rw [hcl] at h; cases h
  | some shape =>
    have hdec := classify_spec hcl
    cases shape with
    | decorLine =>
      simp only [hcl] at h
      obtain rfl := Option.some.inj h
      unfold renderState
      simp [List.append_assoc]
    | header1 ws n post =>
      simp only [hcl] at h
      rcases hdec with hsh | ⟨ws2, n2, post2, hsh, hcore⟩ | ⟨a, b, c, d, hsh, hx⟩ |
        ⟨a, b, c, d, e, hsh, hx⟩
      · cases hsh
      · injection hsh with h1 h2 h3
        subst h1; subst h2; subst h3
        by_cases hck : containsKey (st.top ++ closedTop st.opened) (⟨n⟩ : String) = true
        · rw [if_pos hck] at h
          cases h
        · rw [if_neg hck] at h
          obtain rfl := Option.some.inj h
          conv_rhs => rw [← hnl]
          rw [hcore]
          unfold renderState
          rw [renderEntriesAux_append, renderEntriesAux_append]
          simp [closedTop, closeTop, closedSub, renderEntriesAux_singleton,
            renderItemEntry_table, renderEntriesAux, pathString, mk_data,
            List.append_assoc]
      · cases hsh
      · cases hsh
    | header2 ws n1 n2 post =>
      simp only [hcl] at h
      rcases hdec with hsh | ⟨a, b, c, hsh, hx⟩ | ⟨ws2, m1, m2, post2, hsh, hcore⟩ |
        ⟨a, b, c, d, e, hsh, hx⟩
      · cases hsh
      · cases hsh
      · injection hsh with h1 h2 h3 h4
        subst h1; subst h2; subst h3; subst h4
        cases hop : st.opened with
        | some o =>
          simp only [hop] at h
          by_cases hn : o.name = (⟨n1⟩ : String)
          · rw [if_pos hn] at h
            by_cases hck : containsKey (o.subs ++ closedSub o.openSub) (⟨n2⟩ : String) = true
            · rw [if_pos hck] at h
              cases h
            · rw [if_neg hck] at h
              obtain rfl := Option.some.inj h
              conv_rhs => rw [← hnl]
              rw [hcore]
              unfold renderState
              rw [hop]
              simp only [closedTop, closeTop, closedSub]
              rw [renderEntriesAux_append, renderEntriesAux_append,
                renderEntriesAux_singleton, renderEntriesAux_singleton,
                renderItemEntry_table, renderItemEntry_table]
              rw [renderEntriesAux_append, renderEntriesAux_append]
              simp [closedSub, closeSub, renderEntriesAux_singleton, renderEntriesAux_append,
                renderItemEntry_table, renderEntriesAux, pathString_some_data, pathString,
                mk_data, hn, List.append_assoc]
          · rw [if_neg hn] at h
            by_cases hck : containsKey (st.top ++ closedTop st.opened) (⟨n1⟩ : String) = true
            · rw [hop] at hck
              rw [if_pos hck] at h
              cases h
            · rw [hop] at hck
              rw [if_neg hck] at h
              obtain rfl := Option.some.inj h
              conv_rhs => rw [← hnl]
              rw [hcore]
              unfold renderState
              rw [hop]
              simp only [closedTop, closeTop, closedSub]
              rw [renderEntriesAux_append, renderEntriesAux_append,
                renderEntriesAux_singleton, renderEntriesAux_singleton,
                renderItemEntry_table, renderItemEntry_table]
              simp [closedSub, closeSub, renderEntriesAux_singleton,
                renderItemEntry_table, renderEntriesAux, pathString_some_data, pathString,
                mk_data, List.append_assoc]
        | none =>
          simp only [hop] at h
          by_cases hck : containsKey st.top (⟨n1⟩ : String) = true
          · rw [if_pos hck] at h
            cases h
          · rw [if_neg hck] at h
            obtain rfl := Option.some.inj h
            conv_rhs => rw [← hnl]
            rw [hcore]
            unfold renderState
            rw [hop]
            simp only [closedTop, closeTop, closedSub]
            rw [renderEntriesAux_append, renderEntriesAux_singleton,
              renderItemEntry_table]
            simp [closedSub, closeSub, renderEntriesAux_singleton,
              renderItemEntry_table, renderEntriesAux, pathString_some_data, pathString,
              mk_data, List.append_assoc]
      · cases hsh
    | kvLine ws key eqt v post =>
      simp only [hcl] at h
      rcases hdec with hsh | ⟨a, b, c, hsh, hx⟩ | ⟨a, b, c, d, hsh, hx⟩ |
        ⟨ws2, key2, eqt2, v2, post2, hsh, hcore⟩
      · cases hsh
      · cases hsh
      · cases hsh
      · injection hsh with h1 h2 h3 h4 h5
        subst h1; subst h2; subst h3; subst h4; subst h5
        cases hop : st.opened with
        | none =>
          simp only [hop] at h
          obtain rfl := Option.some.inj h
          conv_rhs => rw [← hnl]
          rw [hcore]
          unfold renderState
          rw [hop]
          simp only [closedTop, List.append_nil]
          rw [renderEntriesAux_append, renderEntriesAux_singleton,
            renderItemEntry_value]
          simp [renderEntriesAux, mk_data, List.append_assoc]
        | some o =>
          simp only [hop] at h
          cases hos : o.openSub with
          | none =>
            simp only [hos] at h
            by_cases hse : o.subs.isEmpty = true
            · rw [if_pos hse] at h
              obtain rfl := Option.some.inj h
              have hsubs : o.subs = [] := by
                cases hs : o.subs
                · rfl
                · rw [hs] at hse; cases hse
              conv_rhs => rw [← hnl]
              rw [hcore]
              unfold renderState
              rw [hop]
              simp only [closedTop, closeTop, hos, hsubs, closedSub]
              rw [renderEntriesAux_append, renderEntriesAux_append,
                renderEntriesAux_singleton, renderEntriesAux_singleton,
                renderItemEntry_table, renderItemEntry_table]
              rw [renderEntriesAux_append]
              simp [renderEntriesAux_append, renderEntriesAux_singleton,
                renderItemEntry_value, renderEntriesAux, mk_data, List.append_assoc]
            · rw [if_neg hse] at h
              cases h
          | some sub =>
            simp only [hos] at h
            obtain rfl := Option.some.inj h
            conv_rhs => rw [← hnl]
            rw [hcore]
            unfold renderState
            rw [hop]
            simp only [closedTop, closeTop, hos, closedSub, closeSub]
            simp [renderEntriesAux_append, renderEntriesAux_singleton,
              renderItemEntry_table, renderItemEntry_value, renderEntriesAux,
              pathString_some_data, pathString, mk_data, List.append_assoc]

theorem parseLines_spec {ls : List (List Char)} :
    ∀ {st : PState} {doc : Document}, parseLines st ls = some doc →
      renderEntriesAux none doc.entries ++ doc.trailer.data
        = renderState st ++ ls.flatten := by
  induction ls with
  | nil =>
    intro st doc h
    simp only [parseLines] at h
    obtain rfl := Option.some.inj h
    simp [finalizeState, renderState]
  | cons l ls ih =>
    intro st doc h
    simp only [parseLines] at h
    cases hps : parseStep st l with
    | none => simp only [hps] at h; cases h
    | some st2 =>
      simp only [hps] at h
      rw [ih h, parseStep_spec hps]
      simp [List.append_assoc]

/-- C9: for every syntactically valid document text (one the modelled
parser accepts), parsing and then serializing without mutation
reproduces the text exactly. -/
theorem claim9_roundtrip {s : String} {doc : Document}
    (h : parseDocument s = some doc) : serializeDocument doc = s := by
  simp only [parseDocument] at h
  have h2 := parseLines_spec h
  rw [flatten_splitLines] at h2
  have h3 : renderState ⟨[], none, []⟩ = [] := by
    simp [renderState, closedTop, renderEntriesAux]
  rw [h3, List.nil_append] at h2
  show (⟨renderEntriesAux none doc.entries ++ doc.trailer.data⟩ : String) = s
  rw [h2]

/-- Witness: the parser accepts a concrete profile manifest and the
round-trip reproduces it byte for byte. -/
theorem claim9_witness :
    (parseDocument "[profile.dev]\ndebug = 0\n").map serializeDocument
      = some "[profile.dev]\ndebug = 0\n" := by
  cases hd : parseDocument "[profile.dev]\ndebug = 0\n" with
  | none =>
    have hs : (parseDocument "[profile.dev]\ndebug = 0\n").isSome = true := rfl
    rw [hd] at hs
    cases hs
  | some doc =>
    show some (serializeDocument doc) = some "[profile.dev]\ndebug = 0\n"
    exact congrArg some (claim9_roundtrip hd)

end CargoWizard
